import Mathlib

/-! Ternary distributed point function: `DPFGen` and `DPFFullDomainEval` (`src/dpf.c`).

A shallow embedding of the two routines of `src/dpf.c`.

Conventions of the embedding.

* A `uint128_t` word is a natural number; XOR is `^^^`, the test `x & 1` is `x &&& 1`.
  Where a statement needs a word to fit 128 bits it says so with a hypothesis `x < 2 ^ 128`.
* A C array (`sCW0`, `parents`, `out`, a key buffer) is a `List Nat`; a read is `getD _ 0`,
  a write is `List.set`.  Key buffers are lists of bytes.
* The three PRF handles are functions `P0 P1 P2 : Nat → Nat`; `PRFEval(key, &x, &y)` stores `P x`.
* The calls to `RAND_bytes` are the parameters `seedA`, `seedB` and `rand` (`rand i` is the word
  drawn in loop iteration `i`).
* The trit decoder `get_trit` is not defined in the sources; `DPFGen` takes it as the
  parameter `gt` (`gt index size i` is the value stored in `uint8_t trit`).
* `uint64_t` counters that are multiplied (`num_nodes`, `two_num_nodes`) wrap modulo `2 ^ 64`.
* `exit(0)` in the `default` case of the switch is the result `none`.
* A 128-bit word is laid out in memory least-significant byte first (the byte order of the
  x86-64 targets of the code).
-/

namespace FastDPF

/-! ## Helpers that the sources only declare -/

/-- Modelled from the spec: `get_lsb` is called by `DPFGen` but defined in a header that is not
among the sources.  The spec calls it the least-significant bit of a seed; the evaluator reads
the same bit as `parents[idx0] & 1`. -/
def get_lsb (x : Nat) : Nat := x &&& 1

/-- Modelled from the spec: `flip_lsb` is called by `DPFGen` but defined in a header that is not
among the sources.  The spec says it flips the least-significant bit of a word. -/
def flip_lsb (x : Nat) : Nat := x ^^^ 1

/-- Modelled from the spec: `get_trit(index, size, i)` is called by `DPFGen` but defined in a
header that is not among the sources.  The spec writes the index in base 3 as
`(t_0, ..., t_{n-1})` with `t_0` the most-significant trit and `t_i = trit(index, n, i)`. -/
def get_trit (index size i : Nat) : Nat := index / 3 ^ (size - 1 - i) % 3

/-- Modelled from the spec: `PRFBatchEval(key, input, output, num)` is defined outside the
sources.  The spec says it applies `Eval` to each of the `num` inputs; `off` is the offset of the
pointer `&out[off]` that the caller passes as `output`. -/
def PRFBatchEval (P : Nat → Nat) (input output : List Nat) (off : Nat) : Nat → List Nat
  | 0 => output
  | num + 1 => (PRFBatchEval P input output off num).set (off + num) (P (input.getD num 0))

/-! ## Bytes and words -/

/-- The `len` bytes of a word in memory, least-significant byte first. -/
def to_bytes : Nat → Nat → List Nat
  | 0, _ => []
  | len + 1, x => x % 256 :: to_bytes len (x / 256)

/-- The word held by a run of bytes, least-significant byte first. -/
def of_bytes : List Nat → Nat
  | [] => 0
  | b :: bs => b + 256 * of_bytes bs

/-- The bytes of a `uint128_t` array. -/
def words_bytes (ws : List Nat) : List Nat := (ws.map (to_bytes 16)).flatten

/-- Store the bytes `src` at `dst[off], dst[off + 1], ...`. -/
def write_bytes : List Nat → Nat → List Nat → List Nat
  | dst, _, [] => dst
  | dst, off, b :: bs => write_bytes (dst.set off b) (off + 1) bs

/-- The call `memcpy(&dst[off], src, n)`. -/
def memcpy (dst : List Nat) (off : Nat) (src : List Nat) (n : Nat) : List Nat :=
  write_bytes dst off (src.take n)

/-- The `uint128_t` read at byte offset `off` of a key (`memcpy(&parents[0], &k[0], 16)` and the
reads `sCW0[i]` through the pointer `&k[16]`). -/
def read_word (k : List Nat) (off : Nat) : Nat := of_bytes ((k.drop off).take 16)

/-! ## `DPFGen` -/

/-- The local variables of `DPFGen` that live across loop iterations. -/
structure GenState where
  parentA : Nat
  parentB : Nat
  sCW0 : List Nat
  sCW1 : List Nat
  sCW2 : List Nat
  deriving DecidableEq

/-- One iteration of the `for` loop of `DPFGen` (`dpf.c` lines 50 to 140). -/
def DPFGen_body (P0 P1 P2 : Nat → Nat) (gt : Nat → Nat → Nat → Nat) (size index : Nat)
    (rand : Nat → Nat) (i : Nat) (st : GenState) : Option GenState :=
  let sA0 := P0 st.parentA
  let sA1 := P1 st.parentA
  let sA2 := P2 st.parentA
  let sB0 := P0 st.parentB
  let sB1 := P1 st.parentB
  let sB2 := P2 st.parentB
  let r := rand i
  let trit := gt index size i
  match trit with
  | 0 =>
    let parent := sA0 ^^^ sB0 ^^^ r
    let r := if get_lsb parent = 0 then flip_lsb r else r
    some
      { sCW0 := st.sCW0.set i r
        sCW1 := st.sCW1.set i (sA1 ^^^ sB1)
        sCW2 := st.sCW2.set i (sA2 ^^^ sB2)
        parentA := if get_lsb st.parentA = 1 then sA0 ^^^ r else sA0
        parentB := if get_lsb st.parentA = 1 then sB0 else sB0 ^^^ r }
  | 1 =>
    let parent := sA1 ^^^ sB1 ^^^ r
    let r := if get_lsb parent = 0 then flip_lsb r else r
    some
      { sCW0 := st.sCW0.set i (sA0 ^^^ sB0)
        sCW1 := st.sCW1.set i r
        sCW2 := st.sCW2.set i (sA2 ^^^ sB2)
        parentA := if get_lsb st.parentA = 1 then sA1 ^^^ r else sA1
        parentB := if get_lsb st.parentA = 1 then sB1 else sB1 ^^^ r }
  | 2 =>
    let parent := sA2 ^^^ sB2 ^^^ r
    let r := if get_lsb parent = 0 then flip_lsb r else r
    some
      { sCW0 := st.sCW0.set i (sA0 ^^^ sB0)
        sCW1 := st.sCW1.set i (sA1 ^^^ sB1)
        sCW2 := st.sCW2.set i r
        parentA := if get_lsb st.parentA = 1 then sA2 ^^^ r else sA2
        parentB := if get_lsb st.parentA = 1 then sB2 else sB2 ^^^ r }
  | _ => none

/-- The state after the first `n` iterations of the `for` loop of `DPFGen`
(`i = 0, 1, ..., n - 1` in this order); `none` once an iteration has called `exit`. -/
def DPFGen_loop (P0 P1 P2 : Nat → Nat) (gt : Nat → Nat → Nat → Nat) (size index : Nat)
    (rand : Nat → Nat) : Nat → GenState → Option GenState
  | 0, st => some st
  | n + 1, st =>
    match DPFGen_loop P0 P1 P2 gt size index rand n st with
    | none => none
    | some st1 => DPFGen_body P0 P1 P2 gt size index rand n st1

/-- The seed of party A after the adjustment of `dpf.c` lines 38 to 43. -/
def DPFGen_seedA (seedA seedB : Nat) : Nat :=
  let parent := seedA ^^^ seedB
  if get_lsb parent = 0 then flip_lsb seedA else seedA

/-- The state of `DPFGen` when the `for` loop starts.  The variable-length arrays `sCW0`,
`sCW1`, `sCW2` have `size` entries; every entry is written before it is read. -/
def DPFGen_init (size seedA seedB : Nat) : GenState :=
  { parentA := DPFGen_seedA seedA seedB
    parentB := seedB
    sCW0 := List.replicate size 0
    sCW1 := List.replicate size 0
    sCW2 := List.replicate size 0 }

/-- The four `memcpy` calls that fill one key (`dpf.c` lines 145 to 148 and 150 to 153). -/
def DPFGen_write (size seed : Nat) (st : GenState) (k : List Nat) : List Nat :=
  let k := memcpy k 0 (to_bytes 16 seed) 16
  let k := memcpy k 16 (words_bytes st.sCW0) (size * 16)
  let k := memcpy k (16 * size + 16) (words_bytes st.sCW1) (size * 16)
  memcpy k (16 * 2 * size + 16) (words_bytes st.sCW2) (size * 16)

/-- The routine `DPFGen`: `kA` and `kB` are the buffers of the caller, the result is their
contents on return, or `none` when the routine calls `exit`. -/
def DPFGen (P0 P1 P2 : Nat → Nat) (gt : Nat → Nat → Nat → Nat) (size index : Nat)
    (seedA seedB : Nat) (rand : Nat → Nat) (kA kB : List Nat) : Option (List Nat × List Nat) :=
  match DPFGen_loop P0 P1 P2 gt size index rand size (DPFGen_init size seedA seedB) with
  | none => none
  | some st =>
    some (DPFGen_write size (DPFGen_seedA seedA seedB) st kA, DPFGen_write size seedB st kB)

/-! ## `DPFFullDomainEval` -/

/-- The `while` loop of one level (`dpf.c` lines 194 to 224).  The first argument counts the
iterations that may still run; the caller passes `num_nodes`, which is the number of iterations
the loop makes from `idx0 = 0`. -/
def eval_while (cw0 cw1 cw2 : Nat) (out : List Nat) (num_nodes : Nat) :
    Nat → Nat → Nat → Nat → List Nat → List Nat
  | 0, _, _, _, parents => parents
  | fuel + 1, idx0, idx1, idx2, parents =>
    if idx0 < num_nodes then
      let parents :=
        if parents.getD idx0 0 &&& 1 ≠ 0 then
          ((parents.set idx0 (out.getD idx0 0 ^^^ cw0)).set idx1 (out.getD idx1 0 ^^^ cw1)).set
            idx2 (out.getD idx2 0 ^^^ cw2)
        else
          ((parents.set idx0 (out.getD idx0 0)).set idx1 (out.getD idx1 0)).set
            idx2 (out.getD idx2 0)
      eval_while cw0 cw1 cw2 out num_nodes fuel (idx0 + 1) (idx1 + 1) (idx2 + 1) parents
    else parents

/-- The variables of `DPFFullDomainEval` that live across the levels. -/
structure EvalState where
  parents : List Nat
  out : List Nat
  num_nodes : Nat
  two_num_nodes : Nat
  deriving DecidableEq

/-- One iteration of the `for` loop over the levels (`dpf.c` lines 184 to 227). -/
def eval_level (P0 P1 P2 : Nat → Nat) (k : List Nat) (size i : Nat) (st : EvalState) :
    EvalState :=
  let out := PRFBatchEval P0 st.parents st.out 0 st.num_nodes
  let out := PRFBatchEval P1 st.parents out st.num_nodes st.num_nodes
  let out := PRFBatchEval P2 st.parents out st.two_num_nodes st.num_nodes
  let parents :=
    eval_while (read_word k (16 + 16 * i)) (read_word k (16 * size + 16 + 16 * i))
      (read_word k (16 * 2 * size + 16 + 16 * i)) out st.num_nodes
      st.num_nodes 0 st.num_nodes st.two_num_nodes st.parents
  let num_nodes := st.num_nodes * 3 % 2 ^ 64
  { parents := parents
    out := out
    num_nodes := num_nodes
    two_num_nodes := 2 * num_nodes % 2 ^ 64 }

/-- The state after the first `n` levels (`i = 0, 1, ..., n - 1` in this order). -/
def eval_levels (P0 P1 P2 : Nat → Nat) (k : List Nat) (size : Nat) : Nat → EvalState → EvalState
  | 0, st => st
  | n + 1, st => eval_level P0 P1 P2 k size n (eval_levels P0 P1 P2 k size n st)

/-- The state of `DPFFullDomainEval` when the loop over the levels starts: `parents` is a fresh
buffer of `3 ^ size` words whose first word is the seed of the key. -/
def eval_init (k : List Nat) (size : Nat) (out : List Nat) : EvalState :=
  { parents := (List.replicate (3 ^ size) 0).set 0 (read_word k 0)
    out := out
    num_nodes := 1
    two_num_nodes := 2 * 1 }

/-- The final `for (; i < num_nodes; i += 3)` loop (`dpf.c` lines 237 to 242).  The body does not
change `idx0`, `idx1`, `idx2`.  The first argument bounds the number of iterations; `num_nodes`
is enough because `i` grows in every iteration. -/
def copy_loop (parents : List Nat) (num_nodes idx0 idx1 idx2 : Nat) :
    Nat → Nat → List Nat → List Nat
  | 0, _, out => out
  | fuel + 1, i, out =>
    if i < num_nodes then
      copy_loop parents num_nodes idx0 idx1 idx2 fuel (i + 3)
        (((out.set idx0 (parents.getD idx0 0)).set idx1 (parents.getD idx1 0)).set
          idx2 (parents.getD idx2 0))
    else out

/-- The routine `DPFFullDomainEval`: `out` is the buffer of the caller, the result is its
contents on return. -/
def DPFFullDomainEval (P0 P1 P2 : Nat → Nat) (k : List Nat) (size : Nat) (out : List Nat) :
    List Nat :=
  let st := eval_levels P0 P1 P2 k size size (eval_init k size out)
  let num_nodes := st.num_nodes / 3
  let two_num_nodes := 2 * num_nodes % 2 ^ 64
  let idx0 := 0
  let idx1 := num_nodes
  let idx2 := two_num_nodes
  copy_loop st.parents num_nodes idx0 idx1 idx2 num_nodes 0 st.out

/-- The contents of the working buffer `parents` when the loop over the levels has ended. -/
def eval_parents (P0 P1 P2 : Nat → Nat) (k : List Nat) (size : Nat) (out : List Nat) :
    List Nat :=
  (eval_levels P0 P1 P2 k size size (eval_init k size out)).parents

/-! ## Vocabulary for the statements -/

/-- The PRF of branch `b` (`prfKey0`, `prfKey1`, `prfKey2`). -/
def prf_sel (P0 P1 P2 : Nat → Nat) (b : Nat) : Nat → Nat :=
  match b with
  | 0 => P0
  | 1 => P1
  | _ => P2

/-- The entry `i` of the correction-word array of branch `b` in a state of `DPFGen`. -/
def cw_sel (st : GenState) (b i : Nat) : Nat :=
  match b with
  | 0 => st.sCW0.getD i 0
  | 1 => st.sCW1.getD i 0
  | _ => st.sCW2.getD i 0

/-- The byte offset in a key of the correction word of branch `b` at level `i`: the arrays start
at `16`, `16 * size + 16` and `16 * 2 * size + 16` (`dpf.c` lines 146 to 148 and 173 to 175). -/
def cw_offset (size b i : Nat) : Nat :=
  match b with
  | 0 => 16 + 16 * i
  | 1 => 16 * size + 16 + 16 * i
  | _ => 16 * 2 * size + 16 + 16 * i

/-- The word that the switch of `DPFGen` stores on the branch of the trit: `r`, with its
least-significant bit flipped when `sA ^ sB ^ r` has least-significant bit 0
(`dpf.c` lines 72 to 74, 94 to 96, 116 to 118). -/
def on_path_word (sA sB r : Nat) : Nat :=
  if get_lsb (sA ^^^ sB ^^^ r) = 0 then flip_lsb r else r

/-- The seed that one level of `DPFFullDomainEval` stores for the child of branch `b` of a node
with seed `s` at level `i` (`dpf.c` lines 202 to 213): the PRF output of branch `b`, XORed with
the correction word of the branch read from the key when `s` is odd. -/
def child_seed (P0 P1 P2 : Nat → Nat) (k : List Nat) (size i b s : Nat) : Nat :=
  if s &&& 1 ≠ 0 then prf_sel P0 P1 P2 b s ^^^ read_word k (cw_offset size b i)
  else prf_sel P0 P1 P2 b s

/-- The slot of the working buffer reached from slot 0 by taking branch `t i` at level `i`, for
the first `n` levels: at a level with `m = 3 ^ i` nodes the child of branch `b` of slot `j` is
stored in slot `j + b * m` (`idx0 = j`, `idx1 = num_nodes + j`, `idx2 = two_num_nodes + j`). -/
def path_slot (t : Nat → Nat) : Nat → Nat
  | 0 => 0
  | i + 1 => path_slot t i + t i * 3 ^ i

/-- The seed of the node reached from the root by taking branch `t i` at level `i`, for the
first `n` levels, computed along the path alone. -/
def path_seed (P0 P1 P2 : Nat → Nat) (k : List Nat) (size : Nat) (t : Nat → Nat) : Nat → Nat
  | 0 => read_word k 0
  | i + 1 => child_seed P0 P1 P2 k size i (t i) (path_seed P0 P1 P2 k size t i)

/-! ## Concrete inputs for the examples -/

/-- A sample PRF for branch 0: a permutation of the 128-bit words. -/
def prf0 (x : Nat) : Nat := (3 * x + 1) % 2 ^ 128

/-- A sample PRF for branch 1: a permutation of the 128-bit words. -/
def prf1 (x : Nat) : Nat := (5 * x + 2) % 2 ^ 128

/-- A sample PRF for branch 2: a permutation of the 128-bit words. -/
def prf2 (x : Nat) : Nat := (7 * x + 4) % 2 ^ 128

/-- A sample function on words that maps every word to 0. -/
def prf_zero (_ : Nat) : Nat := 0

/-- A sample function on words that returns its argument. -/
def prf_id (x : Nat) : Nat := x

/-- A sample sequence of random draws: the word `10 + i` in iteration `i`. -/
def rand10 (i : Nat) : Nat := 10 + i

/-- A sample sequence of random draws: the word 1 in every iteration. -/
def rand1 (_ : Nat) : Nat := 1

/-- A sample sequence of random draws: the word 0 in every iteration. -/
def rand0 (_ : Nat) : Nat := 0

/-- A zeroed buffer of `n` entries. -/
def zeros (n : Nat) : List Nat := List.replicate n 0

/-- The trits `(2, 0)`: branch 2 at level 0, branch 0 at every later level. -/
def trits_2_0 (i : Nat) : Nat := if i = 0 then 2 else 0

/-- A key of depth 2 with seed 1 whose six correction words are all 0. -/
def key_plain : List Nat := words_bytes [1, 0, 0, 0, 0, 0, 0]

/-- A key of depth 2 with seed 1 whose six correction words are all 2. -/
def key_twos : List Nat := words_bytes [1, 2, 2, 2, 2, 2, 2]

/-! ## The buffers of `DPFGen` on termination -/

/-- The contents of the two key buffers of the caller when `DPFGen` terminates, by `return` or
by `exit`.  All `memcpy` calls (`dpf.c` lines 145 to 153) come after the loop, so a run that
calls `exit` inside the loop leaves both buffers as the caller passed them. -/
def DPFGen_buffers (P0 P1 P2 : Nat → Nat) (gt : Nat → Nat → Nat → Nat) (size index : Nat)
    (seedA seedB : Nat) (rand : Nat → Nat) (kA kB : List Nat) : List Nat × List Nat :=
  match DPFGen_loop P0 P1 P2 gt size index rand size (DPFGen_init size seedA seedB) with
  | none => (kA, kB)
  | some st =>
    (DPFGen_write size (DPFGen_seedA seedA seedB) st kA, DPFGen_write size seedB st kB)

/-- A sample trit decoder that yields the invalid digit 3 at level 1 and 0 at the other
levels. -/
def gt_bad (_ _ i : Nat) : Nat := if i = 1 then 3 else 0

/-! ## `DPFFullDomainEval` with checked accesses -/

/-- The read `buf[i]`; `none` when `i` is not an index of the buffer. -/
def read_chk (buf : List Nat) (i : Nat) : Option Nat :=
  if i < buf.length then some (buf.getD i 0) else none

/-- The write `buf[i] = v`; `none` when `i` is not an index of the buffer. -/
def write_chk (buf : List Nat) (i v : Nat) : Option (List Nat) :=
  if i < buf.length then some (buf.set i v) else none

/-- The read of the 16 key bytes at offset `off`; `none` when one of these bytes is not below
`16 * (3 * size + 1)`. -/
def read_word_chk (k : List Nat) (size off : Nat) : Option Nat :=
  if off + 16 ≤ 16 * (3 * size + 1) then some (read_word k off) else none

/-- The read of entry `i` of the correction-word array that starts at byte `base` of the key;
`none` when `i` is not below `size` or a byte read is not below `16 * (3 * size + 1)`. -/
def cw_read_chk (k : List Nat) (size base i : Nat) : Option Nat :=
  if i < size then read_word_chk k size (base + 16 * i) else none

/-- The batch evaluation `PRFBatchEval` with checked accesses to `input` and `output`. -/
def PRFBatchEval_chk (P : Nat → Nat) (input output : List Nat) (off : Nat) :
    Nat → Option (List Nat)
  | 0 => some output
  | num + 1 =>
    (PRFBatchEval_chk P input output off num).bind fun o =>
      (read_chk input num).bind fun x => write_chk o (off + num) (P x)

/-- The `while` loop of one level (`eval_while`) with checked accesses to `parents` and `out`. -/
def eval_while_chk (cw0 cw1 cw2 : Nat) (out : List Nat) (num_nodes : Nat) :
    Nat → Nat → Nat → Nat → List Nat → Option (List Nat)
  | 0, _, _, _, parents => some parents
  | fuel + 1, idx0, idx1, idx2, parents =>
    if idx0 < num_nodes then
      (read_chk parents idx0).bind fun c =>
        (read_chk out idx0).bind fun o0 =>
          (write_chk parents idx0 (if c &&& 1 ≠ 0 then o0 ^^^ cw0 else o0)).bind fun p0 =>
            (read_chk out idx1).bind fun o1 =>
              (write_chk p0 idx1 (if c &&& 1 ≠ 0 then o1 ^^^ cw1 else o1)).bind fun p1 =>
                (read_chk out idx2).bind fun o2 =>
                  (write_chk p1 idx2 (if c &&& 1 ≠ 0 then o2 ^^^ cw2 else o2)).bind fun p2 =>
                    eval_while_chk cw0 cw1 cw2 out num_nodes fuel (idx0 + 1) (idx1 + 1)
                      (idx2 + 1) p2
    else some parents

/-- One level (`eval_level`) with checked accesses.  The three correction words of the level
are read before the `while` loop. -/
def eval_level_chk (P0 P1 P2 : Nat → Nat) (k : List Nat) (size i : Nat) (st : EvalState) :
    Option EvalState :=
  (PRFBatchEval_chk P0 st.parents st.out 0 st.num_nodes).bind fun out0 =>
    (PRFBatchEval_chk P1 st.parents out0 st.num_nodes st.num_nodes).bind fun out1 =>
      (PRFBatchEval_chk P2 st.parents out1 st.two_num_nodes st.num_nodes).bind fun out2 =>
        (cw_read_chk k size 16 i).bind fun cw0 =>
          (cw_read_chk k size (16 * size + 16) i).bind fun cw1 =>
            (cw_read_chk k size (16 * 2 * size + 16) i).bind fun cw2 =>
              (eval_while_chk cw0 cw1 cw2 out2 st.num_nodes st.num_nodes 0 st.num_nodes
                st.two_num_nodes st.parents).bind fun parents =>
                some
                  { parents := parents
                    out := out2
                    num_nodes := st.num_nodes * 3 % 2 ^ 64
                    two_num_nodes := 2 * (st.num_nodes * 3 % 2 ^ 64) % 2 ^ 64 }

/-- The first `n` levels (`eval_levels`) with checked accesses. -/
def eval_levels_chk (P0 P1 P2 : Nat → Nat) (k : List Nat) (size : Nat) :
    Nat → EvalState → Option EvalState
  | 0, st => some st
  | n + 1, st => (eval_levels_chk P0 P1 P2 k size n st).bind (eval_level_chk P0 P1 P2 k size n)

/-- The final loop (`copy_loop`) with checked accesses to `parents` and `out`. -/
def copy_loop_chk (parents : List Nat) (num_nodes idx0 idx1 idx2 : Nat) :
    Nat → Nat → List Nat → Option (List Nat)
  | 0, _, out => some out
  | fuel + 1, i, out =>
    if i < num_nodes then
      (read_chk parents idx0).bind fun v0 =>
        (write_chk out idx0 v0).bind fun o0 =>
          (read_chk parents idx1).bind fun v1 =>
            (write_chk o0 idx1 v1).bind fun o1 =>
              (read_chk parents idx2).bind fun v2 =>
                (write_chk o1 idx2 v2).bind fun o2 =>
                  copy_loop_chk parents num_nodes idx0 idx1 idx2 fuel (i + 3) o2
    else some out

/-- The routine `DPFFullDomainEval` with every access to `parents`, to `out` and to the key
checked: the result is `none` as soon as an index is not below the length of the buffer it
addresses, a correction-word index is not below `size`, or a key byte is not below
`16 * (3 * size + 1)`. -/
def DPFFullDomainEval_chk (P0 P1 P2 : Nat → Nat) (k : List Nat) (size : Nat) (out : List Nat) :
    Option (List Nat) :=
  (read_word_chk k size 0).bind fun seed =>
    (write_chk (List.replicate (3 ^ size) 0) 0 seed).bind fun parents0 =>
      (eval_levels_chk P0 P1 P2 k size size
        { parents := parents0, out := out, num_nodes := 1, two_num_nodes := 2 * 1 }).bind fun st =>
        copy_loop_chk st.parents (st.num_nodes / 3) 0 (st.num_nodes / 3)
          (2 * (st.num_nodes / 3) % 2 ^ 64) (st.num_nodes / 3) 0 st.out

/-! ## Lists as buffers -/

theorem getD_set (l : List Nat) (i j v : Nat) :
    (l.set i v).getD j 0 = if i = j ∧ i < l.length then v else l.getD j 0 := by
  simp only [List.getD_eq_getElem?_getD, List.getElem?_set]
  by_cases hij : i = j
  · subst hij
    by_cases hl : i < l.length
    · simp [hl]
    · simp [hl, List.getElem?_eq_none (Nat.le_of_not_lt hl)]
  · simp [hij]

theorem getD_replicate_zero (n q : Nat) : (List.replicate n 0).getD q 0 = 0 := by
  simp only [List.getD_eq_getElem?_getD, List.getElem?_replicate]
  split_ifs <;> rfl

theorem split_at_length (l : List Nat) (n : Nat) (h : n ≤ l.length) :
    ∃ a b, l = a ++ b ∧ a.length = n :=
  ⟨l.take n, l.drop n, (List.take_append_drop n l).symm, by simp [h]⟩

/-! ## Bytes and words -/

theorem length_to_bytes (n x : Nat) : (to_bytes n x).length = n := by
  induction n generalizing x with
  | zero => rfl
  | succ n ih => simp [to_bytes, ih]

theorem of_bytes_to_bytes (n x : Nat) : of_bytes (to_bytes n x) = x % 256 ^ n := by
  induction n generalizing x with
  | zero => simp [to_bytes, of_bytes, Nat.mod_one]
  | succ n ih =>
    simp only [to_bytes, of_bytes, ih]
    rw [pow_succ', Nat.mod_mul]

theorem of_bytes_to_bytes_word (x : Nat) (hx : x < 2 ^ 128) : of_bytes (to_bytes 16 x) = x := by
  rw [of_bytes_to_bytes]
  exact Nat.mod_eq_of_lt (by norm_num at hx ⊢; exact hx)

theorem words_bytes_cons (w : Nat) (ws : List Nat) :
    words_bytes (w :: ws) = to_bytes 16 w ++ words_bytes ws := by
  simp [words_bytes]

theorem length_words_bytes (ws : List Nat) : (words_bytes ws).length = 16 * ws.length := by
  induction ws with
  | nil => rfl
  | cons w ws ih => rw [words_bytes_cons, List.length_append, length_to_bytes, ih, List.length_cons]; ring

theorem words_bytes_word (ws : List Nat) (i : Nat) (hi : i < ws.length) (c : List Nat) :
    ((words_bytes ws ++ c).drop (16 * i)).take 16 = to_bytes 16 (ws.getD i 0) := by
  induction ws generalizing i with
  | nil => simp at hi
  | cons w ws ih =>
    rw [words_bytes_cons]
    cases i with
    | zero =>
      simp only [Nat.mul_zero, List.drop_zero, List.append_assoc, List.getD_cons_zero]
      rw [List.take_append_of_le_length (by rw [length_to_bytes]), List.take_of_length_le (by rw [length_to_bytes])]
    | succ i =>
      have h16 : 16 * (i + 1) = (to_bytes 16 w).length + 16 * i := by rw [length_to_bytes]; ring
      rw [List.append_assoc, h16, List.drop_append]
      simpa using ih i (by simpa using hi)

theorem key_word_bytes (a c ws : List Nat) (i off : Nat) (hi : i < ws.length)
    (hoff : off = a.length + 16 * i) :
    ((a ++ words_bytes ws ++ c).drop off).take 16 = to_bytes 16 (ws.getD i 0) := by
  subst hoff
  rw [List.append_assoc, List.drop_append, words_bytes_word ws i hi c]

theorem read_word_at (a c : List Nat) (x off : Nat) (hoff : off = a.length) :
    read_word (a ++ to_bytes 16 x ++ c) off = x % 2 ^ 128 := by
  subst hoff
  unfold read_word
  rw [List.append_assoc, List.drop_left, List.take_append_of_le_length (by rw [length_to_bytes]),
    List.take_of_length_le (by rw [length_to_bytes]), of_bytes_to_bytes]
  norm_num

theorem read_word_words (a c ws : List Nat) (i off : Nat) (hi : i < ws.length)
    (hoff : off = a.length + 16 * i) :
    read_word (a ++ words_bytes ws ++ c) off = ws.getD i 0 % 2 ^ 128 := by
  subst hoff
  unfold read_word
  rw [List.append_assoc, List.drop_append, words_bytes_word ws i hi c, of_bytes_to_bytes]
  norm_num

theorem write_bytes_mid (y : List Nat) : ∀ (a x c : List Nat) (off : Nat),
    x.length = y.length → off = a.length → write_bytes (a ++ x ++ c) off y = a ++ y ++ c := by
  induction y with
  | nil =>
    intro a x c off hx _
    have : x = [] := List.length_eq_zero.mp (by simpa using hx)
    subst this
    rfl
  | cons b bs ih =>
    intro a x c off hx hoff
    subst hoff
    cases x with
    | nil => simp at hx
    | cons x0 xs =>
      have hset : (a ++ x0 :: xs ++ c).set a.length b = (a ++ [b]) ++ xs ++ c := by
        simp [List.set_append]
      rw [write_bytes, hset, ih (a ++ [b]) xs c (a.length + 1) (by simpa using hx) (by simp)]
      simp

/-! ## Least-significant bits -/

theorem get_lsb_eq (x : Nat) : get_lsb x = x % 2 := Nat.and_one_is_mod x

theorem get_lsb_xor (x y : Nat) : get_lsb (x ^^^ y) = (x + y) % 2 := by
  rw [get_lsb_eq, Nat.xor_mod_two_eq]

theorem flip_lsb_mod_two (x : Nat) : flip_lsb x % 2 = (x + 1) % 2 := Nat.xor_mod_two_eq

theorem flip_lsb_div_two (x : Nat) : flip_lsb x / 2 = x / 2 := by
  unfold flip_lsb
  rw [Nat.xor_div_two]
  simp

theorem flip_lsb_lt (x : Nat) (hx : x < 2 ^ 128) : flip_lsb x < 2 ^ 128 :=
  Nat.xor_lt_two_pow hx (by norm_num)

theorem get_lsb_mod_word (x : Nat) : get_lsb (x % 2 ^ 128) = get_lsb x := by
  rw [get_lsb_eq, get_lsb_eq]
  exact Nat.mod_mod_of_dvd x (by norm_num)

theorem ne_zero_of_get_lsb (x : Nat) (h : get_lsb x = 1) : x ≠ 0 := by
  rintro rfl
  simp [get_lsb] at h

theorem seedA_lsb (seedA seedB : Nat) : get_lsb (DPFGen_seedA seedA seedB ^^^ seedB) = 1 := by
  unfold DPFGen_seedA
  simp only [get_lsb_xor]
  split_ifs with h
  · have := flip_lsb_mod_two seedA
    omega
  · omega

theorem seedA_div_two (seedA seedB : Nat) : DPFGen_seedA seedA seedB / 2 = seedA / 2 := by
  unfold DPFGen_seedA
  simp only
  split_ifs
  · exact flip_lsb_div_two seedA
  · rfl

theorem seedA_lt (seedA seedB : Nat) (hA : seedA < 2 ^ 128) :
    DPFGen_seedA seedA seedB < 2 ^ 128 := by
  unfold DPFGen_seedA
  simp only
  split_ifs
  · exact flip_lsb_lt seedA hA
  · exact hA

theorem on_path_word_lsb (sA sB r : Nat) : get_lsb (sA ^^^ sB ^^^ on_path_word sA sB r) = 1 := by
  unfold on_path_word
  simp only [get_lsb_xor]
  split_ifs with h
  · have := flip_lsb_mod_two r
    omega
  · omega

theorem on_path_word_div_two (sA sB r : Nat) : on_path_word sA sB r / 2 = r / 2 := by
  unfold on_path_word
  split_ifs
  · exact flip_lsb_div_two r
  · rfl

theorem on_path_word_lt (sA sB r : Nat) (hr : r < 2 ^ 128) : on_path_word sA sB r < 2 ^ 128 := by
  unfold on_path_word
  split_ifs
  · exact flip_lsb_lt r hr
  · exact hr

/-! ## The loop of `DPFGen` -/

/-- One iteration with a valid trit `t`: it succeeds, keeps the array lengths, writes entry `i`
of the three arrays and moves the pair of parents to the children of branch `t`. -/
theorem DPFGen_body_spec (P0 P1 P2 : Nat → Nat) (gt : Nat → Nat → Nat → Nat) (size index : Nat)
    (rand : Nat → Nat) (i : Nat) (st : GenState) (ht : gt index size i < 3) :
    ∃ st1, DPFGen_body P0 P1 P2 gt size index rand i st = some st1 ∧
      st1.sCW0.length = st.sCW0.length ∧ st1.sCW1.length = st.sCW1.length ∧
      st1.sCW2.length = st.sCW2.length ∧
      (∀ b j, j ≠ i → cw_sel st1 b j = cw_sel st b j) ∧
      (i < st.sCW0.length → i < st.sCW1.length → i < st.sCW2.length → ∀ b, b < 3 →
        cw_sel st1 b i =
          if b = gt index size i then
            on_path_word (prf_sel P0 P1 P2 b st.parentA) (prf_sel P0 P1 P2 b st.parentB) (rand i)
          else prf_sel P0 P1 P2 b st.parentA ^^^ prf_sel P0 P1 P2 b st.parentB) ∧
      st1.parentA =
        (if get_lsb st.parentA = 1 then
          prf_sel P0 P1 P2 (gt index size i) st.parentA ^^^
            on_path_word (prf_sel P0 P1 P2 (gt index size i) st.parentA)
              (prf_sel P0 P1 P2 (gt index size i) st.parentB) (rand i)
        else prf_sel P0 P1 P2 (gt index size i) st.parentA) ∧
      st1.parentB =
        (if get_lsb st.parentA = 1 then prf_sel P0 P1 P2 (gt index size i) st.parentB
        else
          prf_sel P0 P1 P2 (gt index size i) st.parentB ^^^
            on_path_word (prf_sel P0 P1 P2 (gt index size i) st.parentA)
              (prf_sel P0 P1 P2 (gt index size i) st.parentB) (rand i)) := by
  have h3 : gt index size i = 0 ∨ gt index size i = 1 ∨ gt index size i = 2 := by omega
  rcases h3 with h | h | h
  all_goals
    refine ⟨_, by simp only [DPFGen_body, h]; rfl, ?_, ?_, ?_, ?_, ?_, ?_, ?_⟩
    · simp
    · simp
    · simp
    · intro b j hj
      rcases b with _ | _ | b <;> simp [cw_sel, getD_set, Ne.symm hj]
    · intro h0 h1 h2 b hb
      have hb3 : b = 0 ∨ b = 1 ∨ b = 2 := by omega
      rcases hb3 with rfl | rfl | rfl <;>
        simp [cw_sel, getD_set, h, h0, h1, h2, prf_sel, on_path_word]
    · simp [h, prf_sel, on_path_word]
    · simp [h, prf_sel, on_path_word]

theorem DPFGen_loop_succ (P0 P1 P2 : Nat → Nat) (gt : Nat → Nat → Nat → Nat) (size index : Nat)
    (rand : Nat → Nat) (n : Nat) (st st1 : GenState)
    (h : DPFGen_loop P0 P1 P2 gt size index rand n st = some st1) :
    DPFGen_loop P0 P1 P2 gt size index rand (n + 1) st =
      DPFGen_body P0 P1 P2 gt size index rand n st1 := by
  simp only [DPFGen_loop, h]

/-- With valid trits the first `n` iterations succeed; they keep the array lengths and leave the
entries from `n` on as they were. -/
theorem DPFGen_loop_spec (P0 P1 P2 : Nat → Nat) (gt : Nat → Nat → Nat → Nat) (size index : Nat)
    (rand : Nat → Nat) (st : GenState) (n : Nat) (hv : ∀ i, i < n → gt index size i < 3) :
    ∃ st1, DPFGen_loop P0 P1 P2 gt size index rand n st = some st1 ∧
      st1.sCW0.length = st.sCW0.length ∧ st1.sCW1.length = st.sCW1.length ∧
      st1.sCW2.length = st.sCW2.length ∧
      ∀ b j, n ≤ j → cw_sel st1 b j = cw_sel st b j := by
  induction n with
  | zero => exact ⟨st, rfl, rfl, rfl, rfl, fun _ _ _ => rfl⟩
  | succ n ih =>
    obtain ⟨st1, h1, l0, l1, l2, hc⟩ := ih (fun i hi => hv i (by omega))
    obtain ⟨st2, h2, m0, m1, m2, hd, -, -, -⟩ :=
      DPFGen_body_spec P0 P1 P2 gt size index rand n st1 (hv n (by omega))
    refine ⟨st2, by rw [DPFGen_loop_succ _ _ _ _ _ _ _ _ _ _ h1, h2], by omega, by omega,
      by omega, ?_⟩
    intro b j hj
    rw [hd b j (by omega), hc b j (by omega)]

/-- Entries written by the first `n` iterations are not changed by later iterations. -/
theorem DPFGen_loop_stable (P0 P1 P2 : Nat → Nat) (gt : Nat → Nat → Nat → Nat)
    (size index : Nat) (rand : Nat → Nat) (st : GenState) (n d : Nat)
    (hv : ∀ i, i < n + d → gt index size i < 3) (st1 st2 : GenState)
    (h1 : DPFGen_loop P0 P1 P2 gt size index rand n st = some st1)
    (h2 : DPFGen_loop P0 P1 P2 gt size index rand (n + d) st = some st2) :
    ∀ b j, j < n → cw_sel st2 b j = cw_sel st1 b j := by
  induction d generalizing st2 with
  | zero =>
    intro b j _
    rw [Nat.add_zero, h1] at h2
    cases h2
    rfl
  | succ d ih =>
    obtain ⟨st3, h3, -⟩ :=
      DPFGen_loop_spec P0 P1 P2 gt size index rand st (n + d) (fun i hi => hv i (by omega))
    obtain ⟨st4, h4, -, -, -, hd, -⟩ :=
      DPFGen_body_spec P0 P1 P2 gt size index rand (n + d) st3 (hv (n + d) (by omega))
    have h5 : DPFGen_loop P0 P1 P2 gt size index rand (n + d + 1) st = some st4 := by
      rw [DPFGen_loop_succ _ _ _ _ _ _ _ _ _ _ h3, h4]
    rw [show n + (d + 1) = n + d + 1 from rfl, h5] at h2
    cases h2
    intro b j hj
    rw [hd b j (by omega)]
    exact ih (fun i hi => hv i (by omega)) st3 h3 b j hj

/-! ## The key written by `DPFGen` -/

/-- The four `memcpy` calls lay the key out as seed, `sCW0`, `sCW1`, `sCW2`; bytes of the buffer
past `16 * (3 * size + 1)` are not touched. -/
theorem DPFGen_write_eq (size seed : Nat) (st : GenState) (k : List Nat)
    (h0 : st.sCW0.length = size) (h1 : st.sCW1.length = size) (h2 : st.sCW2.length = size)
    (hk : 16 * (3 * size + 1) ≤ k.length) :
    DPFGen_write size seed st k =
      to_bytes 16 seed ++ words_bytes st.sCW0 ++ words_bytes st.sCW1 ++ words_bytes st.sCW2 ++
        k.drop (16 * (3 * size + 1)) := by
  obtain ⟨a, r1, rfl, ha⟩ := split_at_length k 16 (by omega)
  obtain ⟨b, r2, rfl, hb⟩ := split_at_length r1 (16 * size) (by simp at hk; omega)
  obtain ⟨c, r3, rfl, hc⟩ := split_at_length r2 (16 * size) (by simp at hk; omega)
  obtain ⟨d, e, rfl, hd⟩ := split_at_length r3 (16 * size) (by simp at hk; omega)
  have hdrop : (a ++ (b ++ (c ++ (d ++ e)))).drop (16 * (3 * size + 1)) = e := by
    have hl : 16 * (3 * size + 1) = (a ++ (b ++ (c ++ d))).length := by
      simp only [List.length_append]; omega
    have he : a ++ (b ++ (c ++ (d ++ e))) = (a ++ (b ++ (c ++ d))) ++ e := by
      simp only [List.append_assoc]
    rw [he, hl, List.drop_left]
  rw [hdrop]
  have t0 : (to_bytes 16 seed).take 16 = to_bytes 16 seed :=
    List.take_of_length_le (by rw [length_to_bytes])
  have tw : ∀ ws : List Nat, ws.length = size → (words_bytes ws).take (size * 16) = words_bytes ws :=
    fun ws hws => List.take_of_length_le (by rw [length_words_bytes]; omega)
  simp only [DPFGen_write, memcpy, t0, tw _ h0, tw _ h1, tw _ h2]
  have s1 := write_bytes_mid (to_bytes 16 seed) [] a (b ++ (c ++ (d ++ e))) 0
    (by rw [length_to_bytes, ha]) rfl
  simp only [List.nil_append] at s1
  rw [s1]
  have s2 := write_bytes_mid (words_bytes st.sCW0) (to_bytes 16 seed) b (c ++ (d ++ e)) 16
    (by rw [length_words_bytes, hb, h0]) (by rw [length_to_bytes])
  rw [List.append_assoc] at s2
  rw [s2]
  have s3 := write_bytes_mid (words_bytes st.sCW1) (to_bytes 16 seed ++ words_bytes st.sCW0) c
    (d ++ e) (16 * size + 16) (by rw [length_words_bytes, hc, h1])
    (by rw [List.length_append, length_to_bytes, length_words_bytes, h0]; omega)
  rw [List.append_assoc, List.append_assoc] at s3
  rw [List.append_assoc, s3]
  have s4 := write_bytes_mid (words_bytes st.sCW2)
    (to_bytes 16 seed ++ words_bytes st.sCW0 ++ words_bytes st.sCW1) d e (16 * 2 * size + 16)
    (by rw [length_words_bytes, hd, h2])
    (by rw [List.length_append, List.length_append, length_to_bytes, length_words_bytes,
      length_words_bytes, h0, h1]; omega)
  simp only [List.append_assoc] at s4 ⊢
  rw [s4]

/-- The key that `DPFGen_write` produces, as a concatenation. -/
theorem DPFGen_spec (P0 P1 P2 : Nat → Nat) (gt : Nat → Nat → Nat → Nat) (size index : Nat)
    (seedA seedB : Nat) (rand : Nat → Nat) (kA0 kB0 : List Nat)
    (hv : ∀ i, i < size → gt index size i < 3)
    (hA : 16 * (3 * size + 1) ≤ kA0.length) (hB : 16 * (3 * size + 1) ≤ kB0.length) :
    ∃ st, DPFGen_loop P0 P1 P2 gt size index rand size (DPFGen_init size seedA seedB) = some st ∧
      st.sCW0.length = size ∧ st.sCW1.length = size ∧ st.sCW2.length = size ∧
      DPFGen P0 P1 P2 gt size index seedA seedB rand kA0 kB0 =
        some
          (to_bytes 16 (DPFGen_seedA seedA seedB) ++ words_bytes st.sCW0 ++ words_bytes st.sCW1 ++
              words_bytes st.sCW2 ++ kA0.drop (16 * (3 * size + 1)),
            to_bytes 16 seedB ++ words_bytes st.sCW0 ++ words_bytes st.sCW1 ++
              words_bytes st.sCW2 ++ kB0.drop (16 * (3 * size + 1))) := by
  obtain ⟨st, hst, l0, l1, l2, -⟩ :=
    DPFGen_loop_spec P0 P1 P2 gt size index rand (DPFGen_init size seedA seedB) size hv
  simp only [DPFGen_init, List.length_replicate] at l0 l1 l2
  refine ⟨st, hst, l0, l1, l2, ?_⟩
  simp only [DPFGen, hst]
  rw [DPFGen_write_eq size _ st kA0 l0 l1 l2 hA, DPFGen_write_eq size _ st kB0 l0 l1 l2 hB]

/-- The words at the offsets of a key laid out as seed, `sCW0`, `sCW1`, `sCW2`. -/
theorem key_layout_words (size seed : Nat) (w0 w1 w2 rest : List Nat)
    (h0 : w0.length = size) (h1 : w1.length = size) (h2 : w2.length = size) :
    let k := to_bytes 16 seed ++ words_bytes w0 ++ words_bytes w1 ++ words_bytes w2 ++ rest
    (k.drop 0).take 16 = to_bytes 16 seed ∧
      ∀ i, i < size →
        (k.drop (16 + 16 * i)).take 16 = to_bytes 16 (w0.getD i 0) ∧
        (k.drop (16 * size + 16 + 16 * i)).take 16 = to_bytes 16 (w1.getD i 0) ∧
        (k.drop (16 * 2 * size + 16 + 16 * i)).take 16 = to_bytes 16 (w2.getD i 0) := by
  intro k
  refine ⟨?_, fun i hi => ⟨?_, ?_, ?_⟩⟩
  · simp only [k, List.append_assoc, List.drop_zero]
    rw [List.take_append_of_le_length (by rw [length_to_bytes]),
      List.take_of_length_le (by rw [length_to_bytes])]
  · have := key_word_bytes (to_bytes 16 seed) (words_bytes w1 ++ words_bytes w2 ++ rest) w0 i
      (16 + 16 * i) (by omega) (by rw [length_to_bytes])
    simpa only [k, List.append_assoc] using this
  · have := key_word_bytes (to_bytes 16 seed ++ words_bytes w0) (words_bytes w2 ++ rest) w1 i
      (16 * size + 16 + 16 * i) (by omega)
      (by rw [List.length_append, length_to_bytes, length_words_bytes, h0]; omega)
    simpa only [k, List.append_assoc] using this
  · have := key_word_bytes (to_bytes 16 seed ++ words_bytes w0 ++ words_bytes w1) rest w2 i
      (16 * 2 * size + 16 + 16 * i) (by omega)
      (by rw [List.length_append, List.length_append, length_to_bytes, length_words_bytes,
        length_words_bytes, h0, h1]; omega)
    simpa only [k, List.append_assoc] using this

/-- Reading the words back from a key laid out as seed, `sCW0`, `sCW1`, `sCW2`. -/
theorem key_layout_read (size seed : Nat) (w0 w1 w2 rest : List Nat)
    (h0 : w0.length = size) (h1 : w1.length = size) (h2 : w2.length = size) :
    let k := to_bytes 16 seed ++ words_bytes w0 ++ words_bytes w1 ++ words_bytes w2 ++ rest
    read_word k 0 = seed % 2 ^ 128 ∧
      ∀ i, i < size →
        read_word k (16 + 16 * i) = w0.getD i 0 % 2 ^ 128 ∧
        read_word k (16 * size + 16 + 16 * i) = w1.getD i 0 % 2 ^ 128 ∧
        read_word k (16 * 2 * size + 16 + 16 * i) = w2.getD i 0 % 2 ^ 128 := by
  intro k
  obtain ⟨hs, hw⟩ := key_layout_words size seed w0 w1 w2 rest h0 h1 h2
  have h256 : (256 : Nat) ^ 16 = 2 ^ 128 := by norm_num
  refine ⟨?_, fun i hi => ?_⟩
  · show of_bytes ((k.drop 0).take 16) = _
    rw [hs, of_bytes_to_bytes, h256]
  · obtain ⟨a0, a1, a2⟩ := hw i hi
    refine ⟨?_, ?_, ?_⟩
    · show of_bytes ((k.drop _).take 16) = _
      rw [a0, of_bytes_to_bytes, h256]
    · show of_bytes ((k.drop _).take 16) = _
      rw [a1, of_bytes_to_bytes, h256]
    · show of_bytes ((k.drop _).take 16) = _
      rw [a2, of_bytes_to_bytes, h256]

/-! ## The loops of `DPFFullDomainEval` -/

theorem length_PRFBatchEval (P : Nat → Nat) (input output : List Nat) (off num : Nat) :
    (PRFBatchEval P input output off num).length = output.length := by
  induction num with
  | zero => rfl
  | succ n ih => simp [PRFBatchEval, ih]

theorem getD_PRFBatchEval (P : Nat → Nat) (input output : List Nat) (off num q : Nat)
    (h : off + num ≤ output.length) :
    (PRFBatchEval P input output off num).getD q 0 =
      if off ≤ q ∧ q < off + num then P (input.getD (q - off) 0) else output.getD q 0 := by
  induction num with
  | zero =>
    rw [if_neg (by omega)]
    rfl
  | succ n ih =>
    rw [PRFBatchEval, getD_set, length_PRFBatchEval, ih (by omega)]
    by_cases hq : off + n = q
    · subst hq
      rw [if_pos ⟨rfl, by omega⟩, if_pos ⟨by omega, by omega⟩, Nat.add_sub_cancel_left]
    · have e1 : ¬ (off + n = q ∧ off + n < output.length) := fun hh => hq hh.1
      rw [if_neg e1]
      by_cases h2 : off ≤ q ∧ q < off + n
      · rw [if_pos h2, if_pos ⟨h2.1, by omega⟩]
      · rw [if_neg h2, if_neg (by omega)]

theorem getD_set3 (p : List Nat) (a b c va vb vc x : Nat) (ha : a < p.length)
    (hb : b < p.length) (hc : c < p.length) (hab : a ≠ b) (hac : a ≠ c) (hbc : b ≠ c) :
    (((p.set a va).set b vb).set c vc).getD x 0 =
      if x = a then va else if x = b then vb else if x = c then vc else p.getD x 0 := by
  simp only [getD_set, List.length_set]
  by_cases h1 : x = a
  · subst h1
    rw [if_neg (fun hh => hac hh.1.symm), if_neg (fun hh => hab hh.1.symm), if_pos ⟨rfl, ha⟩,
      if_pos rfl]
  · by_cases h2 : x = b
    · subst h2
      rw [if_neg (fun hh => hbc hh.1.symm), if_pos ⟨rfl, hb⟩, if_neg h1, if_pos rfl]
    · by_cases h3 : x = c
      · subst h3
        rw [if_pos ⟨rfl, hc⟩, if_neg h1, if_neg h2, if_pos rfl]
      · rw [if_neg (fun hh => h3 hh.1.symm), if_neg (fun hh => h2 hh.1.symm),
          if_neg (fun hh => h1 hh.1.symm), if_neg h1, if_neg h2, if_neg h3]

theorem length_eval_while (cw0 cw1 cw2 : Nat) (out : List Nat) (m : Nat) :
    ∀ (fuel idx0 idx1 idx2 : Nat) (p : List Nat),
      (eval_while cw0 cw1 cw2 out m fuel idx0 idx1 idx2 p).length = p.length := by
  intro fuel
  induction fuel with
  | zero => intros; rfl
  | succ n ih =>
    intro idx0 idx1 idx2 p
    simp only [eval_while]
    split_ifs <;> simp [ih]

/-- The `while` loop of a level, entry by entry: the slots `idx0 ≤ q < m`, `m + idx0 ≤ q < 2m`,
`2m + idx0 ≤ q < 3m` receive the entry of `out`, XORed with the correction word of the branch
when the parent read at the head of the iteration is odd; the other slots are unchanged. -/
theorem getD_eval_while (cw0 cw1 cw2 : Nat) (out : List Nat) (m : Nat) :
    ∀ (fuel a : Nat) (p : List Nat), a + fuel = m → 3 * m ≤ p.length → ∀ q,
      (eval_while cw0 cw1 cw2 out m fuel a (m + a) (2 * m + a) p).getD q 0 =
        if a ≤ q ∧ q < m then
          (if p.getD q 0 &&& 1 ≠ 0 then out.getD q 0 ^^^ cw0 else out.getD q 0)
        else if m + a ≤ q ∧ q < 2 * m then
          (if p.getD (q - m) 0 &&& 1 ≠ 0 then out.getD q 0 ^^^ cw1 else out.getD q 0)
        else if 2 * m + a ≤ q ∧ q < 3 * m then
          (if p.getD (q - 2 * m) 0 &&& 1 ≠ 0 then out.getD q 0 ^^^ cw2 else out.getD q 0)
        else p.getD q 0 := by
  intro fuel
  induction fuel with
  | zero =>
    intro a p ha _ q
    simp only [eval_while]
    rw [if_neg (by omega), if_neg (by omega), if_neg (by omega)]
  | succ n ih =>
    intro a p ha hp q
    have ham : a < m := by omega
    simp only [eval_while, if_pos ham]
    rw [Nat.add_assoc m a 1, Nat.add_assoc (2 * m) a 1]
    have hq : q < a ∨ q = a ∨ (a < q ∧ q < m) ∨ (m ≤ q ∧ q < m + a) ∨ q = m + a ∨
        (m + a < q ∧ q < 2 * m) ∨ (2 * m ≤ q ∧ q < 2 * m + a) ∨ q = 2 * m + a ∨
        (2 * m + a < q ∧ q < 3 * m) ∨ 3 * m ≤ q := by omega
    have e1 : m + a - m = a := by omega
    have e2 : 2 * m + a - 2 * m = a := by omega
    by_cases hc : p.getD a 0 &&& 1 ≠ 0
    · rw [if_pos hc, ih (a + 1) _ (by omega) (by simpa using hp) q]
      have hp1 := fun x => getD_set3 p a (m + a) (2 * m + a) (out.getD a 0 ^^^ cw0)
        (out.getD (m + a) 0 ^^^ cw1) (out.getD (2 * m + a) 0 ^^^ cw2) x (by omega) (by omega)
        (by omega) (by omega) (by omega) (by omega)
      rcases hq with h | h | h | h | h | h | h | h | h | h <;>
        (try subst h) <;>
        simp (disch := omega) only [hp1, if_pos, if_neg, e1, e2, if_pos hc, if_true]
    · rw [if_neg hc, ih (a + 1) _ (by omega) (by simpa using hp) q]
      have hp1 := fun x => getD_set3 p a (m + a) (2 * m + a) (out.getD a 0)
        (out.getD (m + a) 0) (out.getD (2 * m + a) 0) x (by omega) (by omega)
        (by omega) (by omega) (by omega) (by omega)
      rcases hq with h | h | h | h | h | h | h | h | h | h <;>
        (try subst h) <;>
        simp (disch := omega) only [hp1, if_pos, if_neg, e1, e2, if_neg hc, if_true]

theorem getD_batch3 (P0 P1 P2 : Nat → Nat) (p out : List Nat) (m q : Nat)
    (ho : 3 * m ≤ out.length) :
    (PRFBatchEval P2 p (PRFBatchEval P1 p (PRFBatchEval P0 p out 0 m) m m) (2 * m) m).getD q 0 =
      if q < m then P0 (p.getD q 0)
      else if q < 2 * m then P1 (p.getD (q - m) 0)
      else if q < 3 * m then P2 (p.getD (q - 2 * m) 0)
      else out.getD q 0 := by
  rw [getD_PRFBatchEval _ _ _ _ _ _ (by rw [length_PRFBatchEval, length_PRFBatchEval]; omega),
    getD_PRFBatchEval _ _ _ _ _ _ (by rw [length_PRFBatchEval]; omega),
    getD_PRFBatchEval _ _ _ _ _ _ (by omega)]
  have hq : q < m ∨ (m ≤ q ∧ q < 2 * m) ∨ (2 * m ≤ q ∧ q < 3 * m) ∨ 3 * m ≤ q := by omega
  rcases hq with h | h | h | h <;>
    simp (disch := omega) only [if_pos, if_neg, Nat.sub_zero]

/-- One level of the evaluator, entry by entry. -/
theorem eval_level_spec (P0 P1 P2 : Nat → Nat) (k : List Nat) (size i : Nat) (st : EvalState)
    (m : Nat) (hm : st.num_nodes = m) (h2 : st.two_num_nodes = 2 * m)
    (hp : 3 * m ≤ st.parents.length) (ho : 3 * m ≤ st.out.length) :
    (eval_level P0 P1 P2 k size i st).parents.length = st.parents.length ∧
    (eval_level P0 P1 P2 k size i st).out.length = st.out.length ∧
    (eval_level P0 P1 P2 k size i st).num_nodes = m * 3 % 2 ^ 64 ∧
    (eval_level P0 P1 P2 k size i st).two_num_nodes = 2 * (m * 3 % 2 ^ 64) % 2 ^ 64 ∧
    (∀ b j, b < 3 → j < m →
      (eval_level P0 P1 P2 k size i st).out.getD (j + b * m) 0 =
        prf_sel P0 P1 P2 b (st.parents.getD j 0)) ∧
    (∀ b j, b < 3 → j < m →
      (eval_level P0 P1 P2 k size i st).parents.getD (j + b * m) 0 =
        child_seed P0 P1 P2 k size i b (st.parents.getD j 0)) ∧
    (∀ q, 3 * m ≤ q →
      (eval_level P0 P1 P2 k size i st).out.getD q 0 = st.out.getD q 0) ∧
    (∀ q, 3 * m ≤ q →
      (eval_level P0 P1 P2 k size i st).parents.getD q 0 = st.parents.getD q 0) := by
  have hout := fun q => getD_batch3 P0 P1 P2 st.parents st.out m q ho
  have hpar := fun q => getD_eval_while (read_word k (16 + 16 * i))
    (read_word k (16 * size + 16 + 16 * i)) (read_word k (16 * 2 * size + 16 + 16 * i))
    (PRFBatchEval P2 st.parents
      (PRFBatchEval P1 st.parents (PRFBatchEval P0 st.parents st.out 0 m) m m) (2 * m) m)
    m m 0 st.parents (by omega) hp q
  simp only [Nat.add_zero] at hpar
  simp only [eval_level, hm, h2]
  refine ⟨by rw [length_eval_while], by simp only [length_PRFBatchEval], trivial, trivial, ?_, ?_, ?_, ?_⟩
  · intro b j hb hj
    have hb3 : b = 0 ∨ b = 1 ∨ b = 2 := by omega
    rw [hout]
    rcases hb3 with rfl | rfl | rfl
    · simp (disch := omega) only [if_pos, Nat.zero_mul, Nat.add_zero, prf_sel]
    · have e : j + 1 * m - m = j := by omega
      simp (disch := omega) only [if_pos, if_neg, prf_sel, e]
    · have e : j + 2 * m - 2 * m = j := by omega
      simp (disch := omega) only [if_pos, if_neg, prf_sel, e]
  · intro b j hb hj
    have hb3 : b = 0 ∨ b = 1 ∨ b = 2 := by omega
    rw [hpar, hout]
    rcases hb3 with rfl | rfl | rfl
    · simp (disch := omega) only [if_pos, Nat.zero_mul, Nat.add_zero, prf_sel, child_seed,
        cw_offset]
    · have e : j + 1 * m - m = j := by omega
      simp (disch := omega) only [if_pos, if_neg, prf_sel, child_seed, cw_offset, e]
    · have e : j + 2 * m - 2 * m = j := by omega
      simp (disch := omega) only [if_pos, if_neg, prf_sel, child_seed, cw_offset, e]
  · intro q hq
    rw [hout]
    simp (disch := omega) only [if_neg]
  · intro q hq
    rw [hpar]
    simp (disch := omega) only [if_neg]

theorem eval_init_spec (k : List Nat) (size : Nat) (out : List Nat) :
    (eval_init k size out).num_nodes = 1 ∧ (eval_init k size out).two_num_nodes = 2 ∧
    (eval_init k size out).parents.length = 3 ^ size ∧ (eval_init k size out).out = out ∧
    (eval_init k size out).parents.getD 0 0 = read_word k 0 := by
  refine ⟨rfl, rfl, by simp [eval_init], rfl, ?_⟩
  simp only [eval_init]
  rw [getD_set, if_pos ⟨rfl, by simp⟩]

theorem pow3_step (i size : Nat) (hi : i < size) : 3 * 3 ^ i ≤ 3 ^ size := by
  have h : 3 ^ (i + 1) ≤ 3 ^ size := Nat.pow_le_pow_right (by norm_num) hi
  rw [pow_succ] at h
  omega

/-- Counters and buffer lengths after `i` levels. -/
theorem eval_levels_inv (P0 P1 P2 : Nat → Nat) (k : List Nat) (size : Nat) (out : List Nat)
    (hn : 3 ^ size < 2 ^ 64) (ho : 3 ^ size ≤ out.length) (i : Nat) (hi : i ≤ size) :
    (eval_levels P0 P1 P2 k size i (eval_init k size out)).num_nodes = 3 ^ i ∧
    (eval_levels P0 P1 P2 k size i (eval_init k size out)).two_num_nodes = 2 * 3 ^ i % 2 ^ 64 ∧
    (eval_levels P0 P1 P2 k size i (eval_init k size out)).parents.length = 3 ^ size ∧
    (eval_levels P0 P1 P2 k size i (eval_init k size out)).out.length = out.length := by
  induction i with
  | zero =>
    obtain ⟨h1, h2, h3, h4, -⟩ := eval_init_spec k size out
    have e0 : eval_levels P0 P1 P2 k size 0 (eval_init k size out) = eval_init k size out := rfl
    rw [e0]
    exact ⟨h1, by rw [h2]; norm_num, h3, by rw [h4]⟩
  | succ i ih =>
    obtain ⟨a1, a2, a3, a4⟩ := ih (by omega)
    have hstep := pow3_step i size (by omega)
    have hpos : 0 < 3 ^ i := Nat.pow_pos (by norm_num)
    rw [Nat.mod_eq_of_lt (by omega)] at a2
    obtain ⟨b1, b2, b3, b4, -⟩ := eval_level_spec P0 P1 P2 k size i
      (eval_levels P0 P1 P2 k size i (eval_init k size out)) (3 ^ i) a1 a2 (by omega) (by omega)
    have e : 3 ^ i * 3 % 2 ^ 64 = 3 ^ (i + 1) := by
      rw [pow_succ]
      exact Nat.mod_eq_of_lt (by omega)
    rw [e] at b3 b4
    exact ⟨b3, b4, by rw [← a3]; exact b1, by rw [← a4]; exact b2⟩

theorem eval_levels_succ_spec (P0 P1 P2 : Nat → Nat) (k : List Nat) (size : Nat) (out : List Nat)
    (hn : 3 ^ size < 2 ^ 64) (ho : 3 ^ size ≤ out.length) (i : Nat) (hi : i < size) :
    (∀ b j, b < 3 → j < 3 ^ i →
      (eval_levels P0 P1 P2 k size (i + 1) (eval_init k size out)).out.getD (j + b * 3 ^ i) 0 =
        prf_sel P0 P1 P2 b
          ((eval_levels P0 P1 P2 k size i (eval_init k size out)).parents.getD j 0)) ∧
    (∀ b j, b < 3 → j < 3 ^ i →
      (eval_levels P0 P1 P2 k size (i + 1) (eval_init k size out)).parents.getD (j + b * 3 ^ i) 0 =
        child_seed P0 P1 P2 k size i b
          ((eval_levels P0 P1 P2 k size i (eval_init k size out)).parents.getD j 0)) := by
  obtain ⟨a1, a2, a3, a4⟩ := eval_levels_inv P0 P1 P2 k size out hn ho i (by omega)
  have hstep := pow3_step i size hi
  rw [Nat.mod_eq_of_lt (by omega)] at a2
  obtain ⟨-, -, -, -, b5, b6, -⟩ := eval_level_spec P0 P1 P2 k size i
    (eval_levels P0 P1 P2 k size i (eval_init k size out)) (3 ^ i) a1 a2 (by omega) (by omega)
  exact ⟨b5, b6⟩

theorem path_slot_lt (t : Nat → Nat) (n : Nat) (ht : ∀ i, i < n → t i < 3) :
    path_slot t n < 3 ^ n := by
  induction n with
  | zero => simp [path_slot]
  | succ n ih =>
    have h1 := ih (fun i hi => ht i (by omega))
    have h2 := ht n (by omega)
    have h3 : t n * 3 ^ n ≤ 2 * 3 ^ n := Nat.mul_le_mul_right _ (by omega)
    simp only [path_slot, pow_succ]
    omega

theorem path_slot_eq_sum (t : Nat → Nat) (n : Nat) :
    path_slot t n = ∑ i in Finset.range n, t i * 3 ^ i := by
  induction n with
  | zero => rfl
  | succ n ih => rw [Finset.sum_range_succ, ← ih]; rfl

/-- The node reached by the path `t` sits in slot `path_slot t i` after `i` levels. -/
theorem eval_levels_path (P0 P1 P2 : Nat → Nat) (k : List Nat) (size : Nat) (out : List Nat)
    (hn : 3 ^ size < 2 ^ 64) (ho : 3 ^ size ≤ out.length) (t : Nat → Nat)
    (ht : ∀ i, i < size → t i < 3) (i : Nat) (hi : i ≤ size) :
    (eval_levels P0 P1 P2 k size i (eval_init k size out)).parents.getD (path_slot t i) 0 =
      path_seed P0 P1 P2 k size t i := by
  induction i with
  | zero => exact (eval_init_spec k size out).2.2.2.2
  | succ i ih =>
    have hs := path_slot_lt t i (fun j hj => ht j (by omega))
    rw [show path_slot t (i + 1) = path_slot t i + t i * 3 ^ i from rfl,
      (eval_levels_succ_spec P0 P1 P2 k size out hn ho i (by omega)).2 (t i) (path_slot t i)
        (ht i (by omega)) hs, ih (by omega)]
    rfl

theorem length_copy_loop (parents : List Nat) (m idx0 idx1 idx2 : Nat) :
    ∀ (fuel i : Nat) (out : List Nat),
      (copy_loop parents m idx0 idx1 idx2 fuel i out).length = out.length := by
  intro fuel
  induction fuel with
  | zero => intros; rfl
  | succ n ih =>
    intro i out
    simp only [copy_loop]
    split_ifs
    · rw [ih]; simp
    · rfl

/-- The final loop stores the three entries `idx0`, `idx1`, `idx2` when it runs at all, and
nothing else, however many iterations it makes. -/
theorem getD_copy_loop (parents : List Nat) (m idx0 idx1 idx2 : Nat) :
    ∀ (fuel i : Nat) (out : List Nat) (q : Nat),
      (copy_loop parents m idx0 idx1 idx2 fuel i out).getD q 0 =
        if 0 < fuel ∧ i < m then
          (((out.set idx0 (parents.getD idx0 0)).set idx1 (parents.getD idx1 0)).set
            idx2 (parents.getD idx2 0)).getD q 0
        else out.getD q 0 := by
  intro fuel
  induction fuel with
  | zero =>
    intro i out q
    rw [if_neg (by omega)]
    rfl
  | succ n ih =>
    intro i out q
    simp only [copy_loop]
    by_cases him : i < m
    · rw [if_pos him, if_pos ⟨by omega, him⟩, ih]
      by_cases h2 : 0 < n ∧ i + 3 < m
      · rw [if_pos h2]
        simp only [getD_set, List.length_set]
        split_ifs <;> rfl
      · rw [if_neg h2]
    · rw [if_neg him, if_neg (fun hh => him hh.2)]

theorem three_pow_div (size : Nat) (hs : 1 ≤ size) : 3 ^ size / 3 = 3 ^ (size - 1) := by
  obtain ⟨n, rfl⟩ : ∃ n, size = n + 1 := ⟨size - 1, by omega⟩
  rw [pow_succ, Nat.add_sub_cancel, Nat.mul_div_cancel _ (by norm_num)]

/-- The vector that `DPFFullDomainEval` returns: the final loop copies the three entries
`0`, `3 ^ (size - 1)` and `2 * 3 ^ (size - 1)` of `parents`; every other entry is what the last
level left in `out`. -/
theorem DPFFullDomainEval_getD (P0 P1 P2 : Nat → Nat) (k : List Nat) (size : Nat)
    (out : List Nat) (hs : 1 ≤ size) (hn : 3 ^ size < 2 ^ 64) (ho : 3 ^ size ≤ out.length)
    (q : Nat) :
    (DPFFullDomainEval P0 P1 P2 k size out).getD q 0 =
      if q = 0 ∨ q = 3 ^ (size - 1) ∨ q = 2 * 3 ^ (size - 1) then
        (eval_parents P0 P1 P2 k size out).getD q 0
      else (eval_levels P0 P1 P2 k size size (eval_init k size out)).out.getD q 0 := by
  obtain ⟨a1, -, -, a4⟩ := eval_levels_inv P0 P1 P2 k size out hn ho size (le_refl _)
  have hm := three_pow_div size hs
  have hpos : 0 < 3 ^ (size - 1) := Nat.pow_pos (by norm_num)
  have h3 : 3 ^ size = 3 * 3 ^ (size - 1) := by
    obtain ⟨n, rfl⟩ : ∃ n, size = n + 1 := ⟨size - 1, by omega⟩
    rw [pow_succ, Nat.add_sub_cancel]; ring
  have h2 : 2 * 3 ^ (size - 1) % 2 ^ 64 = 2 * 3 ^ (size - 1) := Nat.mod_eq_of_lt (by omega)
  simp only [DPFFullDomainEval, eval_parents, a1, hm, h2]
  rw [getD_copy_loop, if_pos ⟨hpos, hpos⟩,
    getD_set3 _ 0 (3 ^ (size - 1)) (2 * 3 ^ (size - 1)) _ _ _ q (by omega) (by omega) (by omega)
      (by omega) (by omega) (by omega)]
  by_cases q0 : q = 0
  · rw [if_pos q0, if_pos (Or.inl q0), q0]
  · rw [if_neg q0]
    by_cases q1 : q = 3 ^ (size - 1)
    · rw [if_pos q1, if_pos (Or.inr (Or.inl q1)), ← q1]
    · rw [if_neg q1]
      by_cases q2 : q = 2 * 3 ^ (size - 1)
      · rw [if_pos q2, if_pos (Or.inr (Or.inr q2)), ← q2]
      · rw [if_neg q2, if_neg (by omega)]

theorem length_DPFFullDomainEval (P0 P1 P2 : Nat → Nat) (k : List Nat) (size : Nat)
    (out : List Nat) (hn : 3 ^ size < 2 ^ 64) (ho : 3 ^ size ≤ out.length) :
    (DPFFullDomainEval P0 P1 P2 k size out).length = out.length := by
  obtain ⟨-, -, -, a4⟩ := eval_levels_inv P0 P1 P2 k size out hn ho size (le_refl _)
  simp only [DPFFullDomainEval]
  rw [length_copy_loop, a4]

/-- At depth 1 the returned vector holds the three corrected children of the seed. -/
theorem DPFFullDomainEval_depth_one (P0 P1 P2 : Nat → Nat) (k out : List Nat)
    (ho : 3 ≤ out.length) (b : Nat) (hb : b < 3) :
    (DPFFullDomainEval P0 P1 P2 k 1 out).getD b 0 =
      child_seed P0 P1 P2 k 1 0 b (read_word k 0) := by
  have hq : b = 0 ∨ b = 3 ^ (1 - 1) ∨ b = 2 * 3 ^ (1 - 1) := by
    norm_num
    omega
  rw [DPFFullDomainEval_getD P0 P1 P2 k 1 out (le_refl _) (by norm_num) (by simpa using ho) b,
    if_pos hq]
  have h := (eval_levels_succ_spec P0 P1 P2 k 1 out (by norm_num) (by simpa using ho) 0
    (by norm_num)).2 b 0 hb (by norm_num)
  simp only [pow_zero, Nat.mul_one, Nat.zero_add] at h
  rw [eval_parents, h]
  exact congrArg _ (eval_init_spec k 1 out).2.2.2.2

/-! ## Further lemmas on bits, keys and children -/

theorem to_bytes_ne (x y : Nat) (h : x % 2 ≠ y % 2) : to_bytes 16 x ≠ to_bytes 16 y := by
  intro he
  have h1 : x % 256 = y % 256 := by
    simp only [to_bytes] at he
    exact (List.cons.inj he).1
  omega

theorem get_lsb_lt_two (x : Nat) : get_lsb x < 2 := by
  rw [get_lsb_eq]
  exact Nat.mod_lt _ (by norm_num)

theorem get_lsb_xor_split (x y : Nat) (h : get_lsb (x ^^^ y) = 1) :
    get_lsb x ^^^ get_lsb y = 1 := by
  rw [get_lsb_xor] at h
  have hx := Nat.mod_two_eq_zero_or_one x
  have hy := Nat.mod_two_eq_zero_or_one y
  rw [get_lsb_eq, get_lsb_eq]
  rcases hx with hx | hx <;> rcases hy with hy | hy <;> rw [hx, hy] <;> first | rfl | omega

theorem key_prefix_length (size seed : Nat) (w0 w1 w2 : List Nat)
    (h0 : w0.length = size) (h1 : w1.length = size) (h2 : w2.length = size) :
    (to_bytes 16 seed ++ words_bytes w0 ++ words_bytes w1 ++ words_bytes w2).length =
      16 * (3 * size + 1) := by
  simp only [List.length_append, length_to_bytes, length_words_bytes, h0, h1, h2]
  omega

theorem get_trit_lt (index size i : Nat) : get_trit index size i < 3 :=
  Nat.mod_lt _ (by norm_num)

theorem xor_right_comm3 (a b c : Nat) : a ^^^ c ^^^ b = a ^^^ b ^^^ c := by
  rw [Nat.xor_assoc, Nat.xor_comm c b, ← Nat.xor_assoc]

theorem xor_self_cancel (a b : Nat) : a ^^^ b ^^^ (a ^^^ b) = 0 := Nat.xor_self _

/-- Two nodes whose control bits differ: exactly one of them applies the correction word, so the
XOR of their children on branch `b` is the XOR of the PRF outputs and the correction word. -/
theorem child_seed_xor (P0 P1 P2 : Nat → Nat) (kA kB : List Nat) (size i b sA sB cw : Nat)
    (hA : read_word kA (cw_offset size b i) = cw) (hB : read_word kB (cw_offset size b i) = cw)
    (h : get_lsb (sA ^^^ sB) = 1) :
    child_seed P0 P1 P2 kA size i b sA ^^^ child_seed P0 P1 P2 kB size i b sB =
      prf_sel P0 P1 P2 b sA ^^^ prf_sel P0 P1 P2 b sB ^^^ cw := by
  rw [get_lsb_xor] at h
  unfold child_seed
  rw [hA, hB, Nat.and_one_is_mod, Nat.and_one_is_mod]
  have hx := Nat.mod_two_eq_zero_or_one sA
  have hy := Nat.mod_two_eq_zero_or_one sB
  rcases hx with hx | hx <;> rcases hy with hy | hy
  · omega
  · rw [hx, hy, if_neg (by decide), if_pos (by decide), Nat.xor_assoc]
  · rw [hx, hy, if_pos (by decide), if_neg (by decide), xor_right_comm3]
  · omega

/-- Two nodes with equal seeds have equal children when the keys hold the same correction
word. -/
theorem child_seed_eq (P0 P1 P2 : Nat → Nat) (kA kB : List Nat) (size i b s : Nat)
    (h : read_word kA (cw_offset size b i) = read_word kB (cw_offset size b i)) :
    child_seed P0 P1 P2 kA size i b s = child_seed P0 P1 P2 kB size i b s := by
  unfold child_seed
  rw [h]

/-- Reading the correction word of branch `b` at level `i` from a key laid out as seed, `sCW0`,
`sCW1`, `sCW2`. -/
theorem key_layout_read_sel (size seed : Nat) (st : GenState) (rest : List Nat)
    (h0 : st.sCW0.length = size) (h1 : st.sCW1.length = size) (h2 : st.sCW2.length = size)
    (b i : Nat) (hb : b < 3) (hi : i < size) :
    read_word
        (to_bytes 16 seed ++ words_bytes st.sCW0 ++ words_bytes st.sCW1 ++ words_bytes st.sCW2 ++
          rest)
        (cw_offset size b i) = cw_sel st b i % 2 ^ 128 := by
  obtain ⟨-, hw⟩ := key_layout_read size seed st.sCW0 st.sCW1 st.sCW2 rest h0 h1 h2
  obtain ⟨a0, a1, a2⟩ := hw i hi
  have hb3 : b = 0 ∨ b = 1 ∨ b = 2 := by omega
  rcases hb3 with rfl | rfl | rfl
  · exact a0
  · exact a1
  · exact a2

theorem prf_sel_lt (P0 P1 P2 : Nat → Nat) (h0 : ∀ x, P0 x < 2 ^ 128) (h1 : ∀ x, P1 x < 2 ^ 128)
    (h2 : ∀ x, P2 x < 2 ^ 128) (b x : Nat) : prf_sel P0 P1 P2 b x < 2 ^ 128 := by
  unfold prf_sel
  split
  · exact h0 x
  · exact h1 x
  · exact h2 x

/-! ## The generator and the two evaluations -/

/-- With valid trits `DPFGen` returns two keys; read back the way the evaluator reads them, each
key yields the seed of its party and, at every level, the three words of the generator (reduced
modulo `2 ^ 128`, which changes nothing for 128-bit words). -/
theorem DPFGen_keys_read (P0 P1 P2 : Nat → Nat) (gt : Nat → Nat → Nat → Nat) (size index : Nat)
    (seedA seedB : Nat) (rand : Nat → Nat) (kA0 kB0 : List Nat)
    (hv : ∀ i, i < size → gt index size i < 3)
    (hkA : 16 * (3 * size + 1) ≤ kA0.length) (hkB : 16 * (3 * size + 1) ≤ kB0.length) :
    ∃ stn kA kB,
      DPFGen_loop P0 P1 P2 gt size index rand size (DPFGen_init size seedA seedB) = some stn ∧
      DPFGen P0 P1 P2 gt size index seedA seedB rand kA0 kB0 = some (kA, kB) ∧
      read_word kA 0 = DPFGen_seedA seedA seedB % 2 ^ 128 ∧
      read_word kB 0 = seedB % 2 ^ 128 ∧
      (∀ b i, b < 3 → i < size → read_word kA (cw_offset size b i) = cw_sel stn b i % 2 ^ 128) ∧
      (∀ b i, b < 3 → i < size → read_word kB (cw_offset size b i) = cw_sel stn b i % 2 ^ 128) := by
  obtain ⟨stn, hstn, l0, l1, l2, hk⟩ :=
    DPFGen_spec P0 P1 P2 gt size index seedA seedB rand kA0 kB0 hv hkA hkB
  exact ⟨stn, _, _, hstn, hk,
    (key_layout_read size (DPFGen_seedA seedA seedB) stn.sCW0 stn.sCW1 stn.sCW2
      (kA0.drop (16 * (3 * size + 1))) l0 l1 l2).1,
    (key_layout_read size seedB stn.sCW0 stn.sCW1 stn.sCW2
      (kB0.drop (16 * (3 * size + 1))) l0 l1 l2).1,
    fun b i hb hi => key_layout_read_sel size (DPFGen_seedA seedA seedB) stn
      (kA0.drop (16 * (3 * size + 1))) l0 l1 l2 b i hb hi,
    fun b i hb hi => key_layout_read_sel size seedB stn
      (kB0.drop (16 * (3 * size + 1))) l0 l1 l2 b i hb hi⟩

/-- The words that the generator has stored for level `i` when it returns, in terms of the
pair of parents at the start of iteration `i`. -/
theorem DPFGen_cw_value (P0 P1 P2 : Nat → Nat) (gt : Nat → Nat → Nat → Nat) (size index : Nat)
    (seedA seedB : Nat) (rand : Nat → Nat) (hv : ∀ i, i < size → gt index size i < 3)
    (i : Nat) (hi : i < size) (st stn : GenState)
    (hst : DPFGen_loop P0 P1 P2 gt size index rand i (DPFGen_init size seedA seedB) = some st)
    (hstn : DPFGen_loop P0 P1 P2 gt size index rand size (DPFGen_init size seedA seedB) =
      some stn)
    (b : Nat) (hb : b < 3) :
    cw_sel stn b i =
      if b = gt index size i then
        on_path_word (prf_sel P0 P1 P2 b st.parentA) (prf_sel P0 P1 P2 b st.parentB) (rand i)
      else prf_sel P0 P1 P2 b st.parentA ^^^ prf_sel P0 P1 P2 b st.parentB := by
  obtain ⟨st', hst', m0, m1, m2, -⟩ := DPFGen_loop_spec P0 P1 P2 gt size index rand
    (DPFGen_init size seedA seedB) i (fun j hj => hv j (by omega))
  rw [hst] at hst'
  obtain rfl : st = st' := Option.some.inj hst'
  simp only [DPFGen_init, List.length_replicate] at m0 m1 m2
  obtain ⟨st1, hst1, -, -, -, -, hcw, -, -⟩ :=
    DPFGen_body_spec P0 P1 P2 gt size index rand i st (hv i hi)
  have hnext : DPFGen_loop P0 P1 P2 gt size index rand (i + 1) (DPFGen_init size seedA seedB) =
      some st1 := by
    rw [DPFGen_loop_succ _ _ _ _ _ _ _ _ _ _ hst, hst1]
  have hsize : i + 1 + (size - (i + 1)) = size := by omega
  rw [DPFGen_loop_stable P0 P1 P2 gt size index rand (DPFGen_init size seedA seedB) (i + 1)
    (size - (i + 1)) (fun j hj => hv j (by omega)) st1 stn hnext (by rw [hsize]; exact hstn)
    b i (by omega)]
  exact hcw (by omega) (by omega) (by omega) b hb

/-- The pair of parents after iteration `i`, in terms of the pair before it. -/
theorem DPFGen_parent_step (P0 P1 P2 : Nat → Nat) (gt : Nat → Nat → Nat → Nat)
    (size index : Nat) (rand : Nat → Nat) (st0 : GenState) (i : Nat)
    (ht : gt index size i < 3) (st st1 : GenState)
    (hst : DPFGen_loop P0 P1 P2 gt size index rand i st0 = some st)
    (hst1 : DPFGen_loop P0 P1 P2 gt size index rand (i + 1) st0 = some st1) :
    st1.parentA =
        (if get_lsb st.parentA = 1 then
          prf_sel P0 P1 P2 (gt index size i) st.parentA ^^^
            on_path_word (prf_sel P0 P1 P2 (gt index size i) st.parentA)
              (prf_sel P0 P1 P2 (gt index size i) st.parentB) (rand i)
        else prf_sel P0 P1 P2 (gt index size i) st.parentA) ∧
    st1.parentB =
        (if get_lsb st.parentA = 1 then prf_sel P0 P1 P2 (gt index size i) st.parentB
        else
          prf_sel P0 P1 P2 (gt index size i) st.parentB ^^^
            on_path_word (prf_sel P0 P1 P2 (gt index size i) st.parentA)
              (prf_sel P0 P1 P2 (gt index size i) st.parentB) (rand i)) := by
  obtain ⟨st2, hst2, -, -, -, -, -, hA, hB⟩ :=
    DPFGen_body_spec P0 P1 P2 gt size index rand i st ht
  rw [DPFGen_loop_succ _ _ _ _ _ _ _ _ _ _ hst, hst2] at hst1
  obtain rfl : st2 = st1 := Option.some.inj hst1
  exact ⟨hA, hB⟩

/-- The control bits of the pair of parents of the generator differ before and after every
iteration. -/
theorem DPFGen_parents_lsb (P0 P1 P2 : Nat → Nat) (gt : Nat → Nat → Nat → Nat)
    (size index : Nat) (seedA seedB : Nat) (rand : Nat → Nat) (i : Nat)
    (hv : ∀ j, j < i → gt index size j < 3) (st : GenState)
    (hst : DPFGen_loop P0 P1 P2 gt size index rand i (DPFGen_init size seedA seedB) = some st) :
    get_lsb (st.parentA ^^^ st.parentB) = 1 := by
  induction i generalizing st with
  | zero =>
    obtain rfl : DPFGen_init size seedA seedB = st := Option.some.inj hst
    exact seedA_lsb seedA seedB
  | succ i ih =>
    obtain ⟨st0, hst0, -⟩ := DPFGen_loop_spec P0 P1 P2 gt size index rand
      (DPFGen_init size seedA seedB) i (fun j hj => hv j (by omega))
    obtain ⟨hA, hB⟩ := DPFGen_parent_step P0 P1 P2 gt size index rand _ i (hv i (by omega))
      st0 st hst0 hst
    rw [hA, hB]
    have h := on_path_word_lsb (prf_sel P0 P1 P2 (gt index size i) st0.parentA)
      (prf_sel P0 P1 P2 (gt index size i) st0.parentB) (rand i)
    split_ifs
    · rw [xor_right_comm3]
      exact h
    · rw [← Nat.xor_assoc]
      exact h

/-- The step of the generator is the step of the two evaluators on the on-path node: the new
parents are the children that the evaluators compute for the branch of the trit. -/
theorem DPFGen_parent_child (P0 P1 P2 : Nat → Nat) (kA kB : List Nat) (size i t sA sB r : Nat)
    (hA : read_word kA (cw_offset size t i) =
      on_path_word (prf_sel P0 P1 P2 t sA) (prf_sel P0 P1 P2 t sB) r)
    (hB : read_word kB (cw_offset size t i) =
      on_path_word (prf_sel P0 P1 P2 t sA) (prf_sel P0 P1 P2 t sB) r)
    (h : get_lsb (sA ^^^ sB) = 1) :
    child_seed P0 P1 P2 kA size i t sA =
        (if get_lsb sA = 1 then
          prf_sel P0 P1 P2 t sA ^^^ on_path_word (prf_sel P0 P1 P2 t sA) (prf_sel P0 P1 P2 t sB) r
        else prf_sel P0 P1 P2 t sA) ∧
    child_seed P0 P1 P2 kB size i t sB =
        (if get_lsb sA = 1 then prf_sel P0 P1 P2 t sB
        else
          prf_sel P0 P1 P2 t sB ^^^
            on_path_word (prf_sel P0 P1 P2 t sA) (prf_sel P0 P1 P2 t sB) r) := by
  rw [get_lsb_xor] at h
  unfold child_seed
  rw [hA, hB, get_lsb_eq, Nat.and_one_is_mod, Nat.and_one_is_mod]
  have hx := Nat.mod_two_eq_zero_or_one sA
  have hy := Nat.mod_two_eq_zero_or_one sB
  rcases hx with hx | hx <;> rcases hy with hy | hy
  · omega
  · rw [hx, hy]
    exact ⟨by rw [if_neg (by decide), if_neg (by decide)],
      by rw [if_pos (by decide), if_neg (by decide)]⟩
  · rw [hx, hy]
    exact ⟨by rw [if_pos (by decide), if_pos rfl], by rw [if_neg (by decide), if_pos rfl]⟩
  · omega

/-- The two evaluations and the generator, level by level.  With valid trits, 128-bit PRFs and
draws, `DPFGen` returns two keys such that after `i` levels of the evaluator on each key: the
slot of the path of the trits holds the parent of the generator for that party, and every other
slot below `3 ^ i` holds the same seed for both parties. -/
theorem eval_pair_invariant (P0 P1 P2 : Nat → Nat) (gt : Nat → Nat → Nat → Nat)
    (size index : Nat) (seedA seedB : Nat) (rand : Nat → Nat) (kA0 kB0 outA outB : List Nat)
    (h0 : ∀ x, P0 x < 2 ^ 128) (h1 : ∀ x, P1 x < 2 ^ 128) (h2 : ∀ x, P2 x < 2 ^ 128)
    (hsA : seedA < 2 ^ 128) (hsB : seedB < 2 ^ 128) (hr : ∀ i, i < size → rand i < 2 ^ 128)
    (hv : ∀ i, i < size → gt index size i < 3)
    (hkA : 16 * (3 * size + 1) ≤ kA0.length) (hkB : 16 * (3 * size + 1) ≤ kB0.length)
    (hn : 3 ^ size < 2 ^ 64) (hoA : 3 ^ size ≤ outA.length) (hoB : 3 ^ size ≤ outB.length) :
    ∃ kA kB,
      DPFGen P0 P1 P2 gt size index seedA seedB rand kA0 kB0 = some (kA, kB) ∧
      ∀ i, i ≤ size →
        ∃ st, DPFGen_loop P0 P1 P2 gt size index rand i (DPFGen_init size seedA seedB) = some st ∧
          (eval_levels P0 P1 P2 kA size i (eval_init kA size outA)).parents.getD
            (path_slot (gt index size) i) 0 = st.parentA ∧
          (eval_levels P0 P1 P2 kB size i (eval_init kB size outB)).parents.getD
            (path_slot (gt index size) i) 0 = st.parentB ∧
          ∀ j, j < 3 ^ i → j ≠ path_slot (gt index size) i →
            (eval_levels P0 P1 P2 kA size i (eval_init kA size outA)).parents.getD j 0 =
              (eval_levels P0 P1 P2 kB size i (eval_init kB size outB)).parents.getD j 0 := by
  obtain ⟨stn, kA, kB, hstn, hk, rsA, rsB, rA, rB⟩ :=
    DPFGen_keys_read P0 P1 P2 gt size index seedA seedB rand kA0 kB0 hv hkA hkB
  rw [Nat.mod_eq_of_lt (seedA_lt seedA seedB hsA)] at rsA
  rw [Nat.mod_eq_of_lt hsB] at rsB
  refine ⟨kA, kB, hk, ?_⟩
  intro i
  induction i with
  | zero =>
    intro _
    refine ⟨DPFGen_init size seedA seedB, rfl, ?_, ?_, ?_⟩
    · exact (eval_init_spec kA size outA).2.2.2.2.trans rsA
    · exact (eval_init_spec kB size outB).2.2.2.2.trans rsB
    · intro j hj hne
      simp only [pow_zero, path_slot] at hj hne
      omega
  | succ i ih =>
    intro hi
    obtain ⟨st, hst, pA, pB, hoff⟩ := ih (by omega)
    obtain ⟨st1, hst1, -⟩ := DPFGen_loop_spec P0 P1 P2 gt size index rand
      (DPFGen_init size seedA seedB) (i + 1) (fun j hj => hv j (by omega))
    have hti := hv i (by omega)
    have hlsb := DPFGen_parents_lsb P0 P1 P2 gt size index seedA seedB rand i
      (fun j hj => hv j (by omega)) st hst
    have hcw := DPFGen_cw_value P0 P1 P2 gt size index seedA seedB rand hv i (by omega) st stn
      hst hstn
    have hlt : ∀ b, b < 3 → cw_sel stn b i < 2 ^ 128 := by
      intro b hb
      rw [hcw b hb]
      split_ifs
      · exact on_path_word_lt _ _ _ (hr i (by omega))
      · exact Nat.xor_lt_two_pow (prf_sel_lt P0 P1 P2 h0 h1 h2 _ _)
          (prf_sel_lt P0 P1 P2 h0 h1 h2 _ _)
    have cA : ∀ b, b < 3 → read_word kA (cw_offset size b i) = cw_sel stn b i := fun b hb => by
      rw [rA b i hb (by omega), Nat.mod_eq_of_lt (hlt b hb)]
    have cB : ∀ b, b < 3 → read_word kB (cw_offset size b i) = cw_sel stn b i := fun b hb => by
      rw [rB b i hb (by omega), Nat.mod_eq_of_lt (hlt b hb)]
    have sA := (eval_levels_succ_spec P0 P1 P2 kA size outA hn hoA i (by omega)).2
    have sB := (eval_levels_succ_spec P0 P1 P2 kB size outB hn hoB i (by omega)).2
    have hslot := path_slot_lt (gt index size) i (fun j hj => hv j (by omega))
    obtain ⟨gA, gB⟩ := DPFGen_parent_step P0 P1 P2 gt size index rand _ i hti st st1 hst hst1
    have hont := hcw (gt index size i) hti
    rw [if_pos rfl] at hont
    obtain ⟨eA, eB⟩ := DPFGen_parent_child P0 P1 P2 kA kB size i (gt index size i) st.parentA
      st.parentB (rand i) ((cA _ hti).trans hont) ((cB _ hti).trans hont) hlsb
    refine ⟨st1, hst1, ?_, ?_, ?_⟩
    · rw [show path_slot (gt index size) (i + 1) =
        path_slot (gt index size) i + gt index size i * 3 ^ i from rfl,
        sA _ _ hti hslot, pA, eA, gA]
    · rw [show path_slot (gt index size) (i + 1) =
        path_slot (gt index size) i + gt index size i * 3 ^ i from rfl,
        sB _ _ hti hslot, pB, eB, gB]
    · intro q hq hne
      have hpos : 0 < 3 ^ i := Nat.pow_pos (by norm_num)
      have hb : q / 3 ^ i < 3 := Nat.div_lt_of_lt_mul (by rw [pow_succ] at hq; omega)
      have hj : q % 3 ^ i < 3 ^ i := Nat.mod_lt _ hpos
      have hdec : q = q % 3 ^ i + q / 3 ^ i * 3 ^ i := by
        rw [Nat.mul_comm]
        exact (Nat.mod_add_div q (3 ^ i)).symm
      rw [hdec, sA _ _ hb hj, sB _ _ hb hj]
      by_cases hjp : q % 3 ^ i = path_slot (gt index size) i
      · have hbt : q / 3 ^ i ≠ gt index size i := by
          intro hbt
          apply hne
          rw [show path_slot (gt index size) (i + 1) =
            path_slot (gt index size) i + gt index size i * 3 ^ i from rfl, ← hjp, ← hbt]
          exact hdec
        rw [hjp, pA, pB]
        have hval := hcw (q / 3 ^ i) hb
        rw [if_neg hbt] at hval
        have hx := child_seed_xor P0 P1 P2 kA kB size i (q / 3 ^ i) st.parentA st.parentB _
          ((cA _ hb).trans hval) ((cB _ hb).trans hval) hlsb
        rw [xor_self_cancel] at hx
        exact Nat.xor_eq_zero.mp hx
      · rw [hoff _ hj hjp]
        exact child_seed_eq P0 P1 P2 kA kB size i _ _ ((cA _ hb).trans (cB _ hb).symm)

/-- The working buffers of the two parties after all levels: they agree on every slot below
`3 ^ size` except the slot of the path of the trits, where their XOR is odd.  (This is the content
of `parents` that the final loop of `DPFFullDomainEval` reads.) -/
theorem eval_parents_point_function (P0 P1 P2 : Nat → Nat) (gt : Nat → Nat → Nat → Nat)
    (size index : Nat) (seedA seedB : Nat) (rand : Nat → Nat) (kA0 kB0 outA outB : List Nat)
    (h0 : ∀ x, P0 x < 2 ^ 128) (h1 : ∀ x, P1 x < 2 ^ 128) (h2 : ∀ x, P2 x < 2 ^ 128)
    (hsA : seedA < 2 ^ 128) (hsB : seedB < 2 ^ 128) (hr : ∀ i, i < size → rand i < 2 ^ 128)
    (hv : ∀ i, i < size → gt index size i < 3)
    (hkA : 16 * (3 * size + 1) ≤ kA0.length) (hkB : 16 * (3 * size + 1) ≤ kB0.length)
    (hn : 3 ^ size < 2 ^ 64) (hoA : 3 ^ size ≤ outA.length) (hoB : 3 ^ size ≤ outB.length) :
    ∃ kA kB,
      DPFGen P0 P1 P2 gt size index seedA seedB rand kA0 kB0 = some (kA, kB) ∧
      get_lsb
        ((eval_parents P0 P1 P2 kA size outA).getD (path_slot (gt index size) size) 0 ^^^
          (eval_parents P0 P1 P2 kB size outB).getD (path_slot (gt index size) size) 0) = 1 ∧
      ∀ j, j < 3 ^ size → j ≠ path_slot (gt index size) size →
        (eval_parents P0 P1 P2 kA size outA).getD j 0 =
          (eval_parents P0 P1 P2 kB size outB).getD j 0 := by
  obtain ⟨kA, kB, hk, hall⟩ := eval_pair_invariant P0 P1 P2 gt size index seedA seedB rand kA0
    kB0 outA outB h0 h1 h2 hsA hsB hr hv hkA hkB hn hoA hoB
  obtain ⟨st, hst, pA, pB, hoff⟩ := hall size (le_refl _)
  refine ⟨kA, kB, hk, ?_, hoff⟩
  simp only [eval_parents]
  rw [pA, pB]
  exact DPFGen_parents_lsb P0 P1 P2 gt size index seedA seedB rand size hv st hst

/-! ## Failure of `DPFGen`, single keys, checked accesses -/

theorem child_seed_as_xor (P0 P1 P2 : Nat → Nat) (k : List Nat) (size i b s : Nat) :
    child_seed P0 P1 P2 k size i b s =
      prf_sel P0 P1 P2 b s ^^^ (if get_lsb s = 1 then read_word k (cw_offset size b i) else 0) := by
  unfold child_seed
  rw [get_lsb_eq, Nat.and_one_is_mod]
  rcases Nat.mod_two_eq_zero_or_one s with h | h
  · rw [h, if_neg (by decide), if_neg (by decide), Nat.xor_zero]
  · rw [h, if_pos (by decide), if_pos rfl]

theorem cw_sel_lt (P0 P1 P2 : Nat → Nat) (gt : Nat → Nat → Nat → Nat) (size index : Nat)
    (seedA seedB : Nat) (rand : Nat → Nat)
    (h0 : ∀ x, P0 x < 2 ^ 128) (h1 : ∀ x, P1 x < 2 ^ 128) (h2 : ∀ x, P2 x < 2 ^ 128)
    (hr : ∀ i, i < size → rand i < 2 ^ 128)
    (hv : ∀ i, i < size → gt index size i < 3) (stn : GenState)
    (hstn : DPFGen_loop P0 P1 P2 gt size index rand size (DPFGen_init size seedA seedB) =
      some stn)
    (b i : Nat) (hb : b < 3) (hi : i < size) : cw_sel stn b i < 2 ^ 128 := by
  obtain ⟨st, hst, -⟩ := DPFGen_loop_spec P0 P1 P2 gt size index rand
    (DPFGen_init size seedA seedB) i (fun j hj => hv j (by omega))
  rw [DPFGen_cw_value P0 P1 P2 gt size index seedA seedB rand hv i hi st stn hst hstn b hb]
  split_ifs
  · exact on_path_word_lt _ _ _ (hr i hi)
  · exact Nat.xor_lt_two_pow (prf_sel_lt P0 P1 P2 h0 h1 h2 _ _) (prf_sel_lt P0 P1 P2 h0 h1 h2 _ _)

theorem on_path_word_flips_iff (sA sB r : Nat) :
    get_lsb (on_path_word sA sB r) ≠ get_lsb r ↔ get_lsb (sA ^^^ sB ^^^ r) = 0 := by
  unfold on_path_word
  split_ifs with h
  · simp only [h, iff_true]
    rw [get_lsb_eq, get_lsb_eq, flip_lsb_mod_two]
    omega
  · simp only [h, iff_false, ne_eq, not_true_eq_false, not_false_eq_true]

theorem DPFGen_body_none (P0 P1 P2 : Nat → Nat) (gt : Nat → Nat → Nat → Nat) (size index : Nat)
    (rand : Nat → Nat) (i : Nat) (st : GenState) (ht : ¬ gt index size i < 3) :
    DPFGen_body P0 P1 P2 gt size index rand i st = none := by
  obtain ⟨k, hk⟩ : ∃ k, gt index size i = k + 3 := ⟨gt index size i - 3, by omega⟩
  simp only [DPFGen_body, hk]

/-- The loop of `DPFGen` calls `exit` within its first `n` iterations exactly when one of the
first `n` trits is not in `{0, 1, 2}`. -/
theorem DPFGen_loop_none_iff (P0 P1 P2 : Nat → Nat) (gt : Nat → Nat → Nat → Nat)
    (size index : Nat) (rand : Nat → Nat) (st : GenState) (n : Nat) :
    DPFGen_loop P0 P1 P2 gt size index rand n st = none ↔
      ∃ i, i < n ∧ ¬ gt index size i < 3 := by
  constructor
  · intro h
    by_contra hne
    have hv : ∀ i, i < n → gt index size i < 3 := by
      intro i hi
      by_contra hc
      exact hne ⟨i, hi, hc⟩
    obtain ⟨st1, h1, -⟩ := DPFGen_loop_spec P0 P1 P2 gt size index rand st n hv
    rw [h] at h1
    cases h1
  · rintro ⟨i, hi, hbad⟩
    induction n with
    | zero => omega
    | succ n ih =>
      rw [DPFGen_loop]
      cases hl : DPFGen_loop P0 P1 P2 gt size index rand n st with
      | none => rfl
      | some st1 =>
        by_cases hin : i < n
        · rw [ih hin] at hl
          cases hl
        · obtain rfl : i = n := by omega
          exact DPFGen_body_none P0 P1 P2 gt size index rand i st1 hbad

theorem prf_sel_id (b x : Nat) : prf_sel prf_id prf_id prf_id b x = x := by
  unfold prf_sel
  split <;> rfl

/-- With the identity in place of the three PRFs a single key determines every trit: at every
level the word stored for the branch of the trit is even and the other two words are odd.  So
the statement that one key hides the index cannot hold for arbitrary functions in place of the
PRFs. -/
theorem identity_prf_key_reveals_trits (gt : Nat → Nat → Nat → Nat) (size index : Nat)
    (seedA seedB : Nat) (rand : Nat → Nat) (kA0 kB0 : List Nat)
    (hv : ∀ i, i < size → gt index size i < 3)
    (hkA : 16 * (3 * size + 1) ≤ kA0.length) (hkB : 16 * (3 * size + 1) ≤ kB0.length) :
    ∃ kA kB,
      DPFGen prf_id prf_id prf_id gt size index seedA seedB rand kA0 kB0 = some (kA, kB) ∧
      ∀ i, i < size → ∀ b, b < 3 →
        (get_lsb (read_word kA (cw_offset size b i)) = 0 ↔ b = gt index size i) ∧
        (get_lsb (read_word kB (cw_offset size b i)) = 0 ↔ b = gt index size i) := by
  obtain ⟨stn, kA, kB, hstn, hk, -, -, rA, rB⟩ :=
    DPFGen_keys_read prf_id prf_id prf_id gt size index seedA seedB rand kA0 kB0 hv hkA hkB
  refine ⟨kA, kB, hk, fun i hi b hb => ?_⟩
  obtain ⟨st, hst, -⟩ := DPFGen_loop_spec prf_id prf_id prf_id gt size index rand
    (DPFGen_init size seedA seedB) i (fun j hj => hv j (by omega))
  have hlsb := DPFGen_parents_lsb prf_id prf_id prf_id gt size index seedA seedB rand i
    (fun j hj => hv j (by omega)) st hst
  have hcw := DPFGen_cw_value prf_id prf_id prf_id gt size index seedA seedB rand hv i hi st stn
    hst hstn b hb
  simp only [prf_sel_id] at hcw
  have hon := on_path_word_lsb st.parentA st.parentB (rand i)
  have key : get_lsb (cw_sel stn b i) = 0 ↔ b = gt index size i := by
    rw [hcw]
    rw [get_lsb_xor] at hlsb hon
    have hx : (st.parentA ^^^ st.parentB) % 2 = (st.parentA + st.parentB) % 2 :=
      Nat.xor_mod_two_eq
    by_cases hbt : b = gt index size i
    · rw [if_pos hbt, get_lsb_eq]
      exact ⟨fun _ => hbt, fun _ => by omega⟩
    · rw [if_neg hbt, get_lsb_xor]
      exact ⟨fun h => by omega, fun h => absurd h hbt⟩
  rw [rA b i hb hi, rB b i hb hi, get_lsb_mod_word]
  exact ⟨key, key⟩

theorem read_chk_eq (buf : List Nat) (i : Nat) (h : i < buf.length) :
    read_chk buf i = some (buf.getD i 0) := if_pos h

theorem write_chk_eq (buf : List Nat) (i v : Nat) (h : i < buf.length) :
    write_chk buf i v = some (buf.set i v) := if_pos h

theorem PRFBatchEval_chk_eq (P : Nat → Nat) (input output : List Nat) (off num : Nat)
    (hin : num ≤ input.length) (hout : off + num ≤ output.length) :
    PRFBatchEval_chk P input output off num = some (PRFBatchEval P input output off num) := by
  induction num with
  | zero => rfl
  | succ n ih =>
    rw [PRFBatchEval_chk, ih (by omega) (by omega), Option.some_bind,
      read_chk_eq input n (by omega), Option.some_bind,
      write_chk_eq _ _ _ (by rw [length_PRFBatchEval]; omega)]
    rfl

theorem eval_while_chk_eq (cw0 cw1 cw2 : Nat) (out : List Nat) (m : Nat)
    (ho : 3 * m ≤ out.length) :
    ∀ (fuel a : Nat) (p : List Nat), a + fuel = m → 3 * m ≤ p.length →
      eval_while_chk cw0 cw1 cw2 out m fuel a (m + a) (2 * m + a) p =
        some (eval_while cw0 cw1 cw2 out m fuel a (m + a) (2 * m + a) p) := by
  intro fuel
  induction fuel with
  | zero => intros; rfl
  | succ n ih =>
    intro a p ha hp
    have ham : a < m := by omega
    simp only [eval_while_chk, eval_while, if_pos ham]
    rw [read_chk_eq p a (by omega), Option.some_bind, read_chk_eq out a (by omega),
      Option.some_bind, write_chk_eq p a _ (by omega), Option.some_bind,
      read_chk_eq out (m + a) (by omega), Option.some_bind,
      write_chk_eq _ (m + a) _ (by rw [List.length_set]; omega), Option.some_bind,
      read_chk_eq out (2 * m + a) (by omega), Option.some_bind,
      write_chk_eq _ (2 * m + a) _ (by rw [List.length_set, List.length_set]; omega),
      Option.some_bind, Nat.add_assoc m a 1, Nat.add_assoc (2 * m) a 1,
      ih (a + 1) _ (by omega) (by rw [List.length_set, List.length_set, List.length_set]; omega)]
    by_cases hc : p.getD a 0 &&& 1 ≠ 0
    · simp only [if_pos hc]
    · simp only [if_neg hc]

theorem cw_read_chk_eq (k : List Nat) (size base i : Nat) (hi : i < size)
    (hb : base + 16 * i + 16 ≤ 16 * (3 * size + 1)) :
    cw_read_chk k size base i = some (read_word k (base + 16 * i)) := by
  unfold cw_read_chk read_word_chk
  rw [if_pos hi, if_pos hb]

theorem eval_level_chk_eq (P0 P1 P2 : Nat → Nat) (k : List Nat) (size i : Nat) (st : EvalState)
    (m : Nat) (hm : st.num_nodes = m) (h2 : st.two_num_nodes = 2 * m)
    (hp : 3 * m ≤ st.parents.length) (ho : 3 * m ≤ st.out.length) (hi : i < size) :
    eval_level_chk P0 P1 P2 k size i st = some (eval_level P0 P1 P2 k size i st) := by
  unfold eval_level_chk eval_level
  rw [hm, h2,
    PRFBatchEval_chk_eq P0 _ _ 0 m (by omega) (by omega), Option.some_bind,
    PRFBatchEval_chk_eq P1 _ _ m m (by omega) (by rw [length_PRFBatchEval]; omega),
    Option.some_bind,
    PRFBatchEval_chk_eq P2 _ _ (2 * m) m (by omega)
      (by rw [length_PRFBatchEval, length_PRFBatchEval]; omega),
    Option.some_bind,
    cw_read_chk_eq k size 16 i hi (by omega), Option.some_bind,
    cw_read_chk_eq k size (16 * size + 16) i hi (by omega), Option.some_bind,
    cw_read_chk_eq k size (16 * 2 * size + 16) i hi (by omega), Option.some_bind]
  have hw := eval_while_chk_eq (read_word k (16 + 16 * i)) (read_word k (16 * size + 16 + 16 * i))
    (read_word k (16 * 2 * size + 16 + 16 * i))
    (PRFBatchEval P2 st.parents
      (PRFBatchEval P1 st.parents (PRFBatchEval P0 st.parents st.out 0 m) m m) (2 * m) m) m
    (by rw [length_PRFBatchEval, length_PRFBatchEval, length_PRFBatchEval]; exact ho)
    m 0 st.parents (by omega) hp
  simp only [Nat.add_zero] at hw
  rw [hw, Option.some_bind]

theorem eval_levels_chk_eq (P0 P1 P2 : Nat → Nat) (k : List Nat) (size : Nat) (out : List Nat)
    (hn : 3 ^ size < 2 ^ 64) (ho : 3 ^ size ≤ out.length) (i : Nat) (hi : i ≤ size) :
    eval_levels_chk P0 P1 P2 k size i (eval_init k size out) =
      some (eval_levels P0 P1 P2 k size i (eval_init k size out)) := by
  induction i with
  | zero => rfl
  | succ i ih =>
    obtain ⟨a1, a2, a3, a4⟩ := eval_levels_inv P0 P1 P2 k size out hn ho i (by omega)
    have hstep := pow3_step i size (by omega)
    rw [Nat.mod_eq_of_lt (by omega)] at a2
    rw [eval_levels_chk, ih (by omega), Option.some_bind,
      eval_level_chk_eq P0 P1 P2 k size i _ (3 ^ i) a1 a2 (by omega) (by omega) (by omega)]
    rfl

theorem copy_loop_chk_eq (parents : List Nat) (m idx0 idx1 idx2 : Nat)
    (h0 : idx0 < parents.length) (h1 : idx1 < parents.length) (h2 : idx2 < parents.length) :
    ∀ (fuel i : Nat) (out : List Nat), idx0 < out.length → idx1 < out.length →
      idx2 < out.length →
      copy_loop_chk parents m idx0 idx1 idx2 fuel i out =
        some (copy_loop parents m idx0 idx1 idx2 fuel i out) := by
  intro fuel
  induction fuel with
  | zero => intros; rfl
  | succ n ih =>
    intro i out g0 g1 g2
    simp only [copy_loop_chk, copy_loop]
    split_ifs
    · rw [read_chk_eq parents idx0 h0, Option.some_bind, write_chk_eq out idx0 _ g0,
        Option.some_bind, read_chk_eq parents idx1 h1, Option.some_bind,
        write_chk_eq _ idx1 _ (by rw [List.length_set]; exact g1), Option.some_bind,
        read_chk_eq parents idx2 h2, Option.some_bind,
        write_chk_eq _ idx2 _ (by rw [List.length_set, List.length_set]; exact g2),
        Option.some_bind,
        ih _ _ (by rw [List.length_set, List.length_set, List.length_set]; exact g0)
          (by rw [List.length_set, List.length_set, List.length_set]; exact g1)
          (by rw [List.length_set, List.length_set, List.length_set]; exact g2)]
    · rfl

/-! ## The claims -/

/-- C1 on the code: at depth 2 with index 4, the sample PRFs, seeds 6 and 9 and draws 10, 11,
`DPFGen` returns and the two vectors of `DPFFullDomainEval` differ at the indices 1, 4 and 7;
at index 1 their XOR is 17.  The working buffers after the second level differ at slot 4
only. -/
theorem zero_off_alpha_failing_input :
    (DPFGen prf0 prf1 prf2 get_trit 2 4 6 9 rand10 (zeros 112) (zeros 112)).map
      (fun ks =>
        (DPFFullDomainEval prf0 prf1 prf2 ks.1 2 (zeros 9),
          DPFFullDomainEval prf0 prf1 prf2 ks.2 2 (zeros 9),
          (DPFFullDomainEval prf0 prf1 prf2 ks.1 2 (zeros 9)).getD 1 0 ^^^
            (DPFFullDomainEval prf0 prf1 prf2 ks.2 2 (zeros 9)).getD 1 0,
          eval_parents prf0 prf1 prf2 ks.1 2 (zeros 9),
          eval_parents prf0 prf1 prf2 ks.2 2 (zeros 9))) =
      some
        ([43, 97, 139, 107, 162, 232, 362, 228, 326],
          [43, 112, 139, 107, 187, 232, 362, 263, 326], 17,
          [43, 97, 139, 107, 162, 232, 362, 228, 326],
          [43, 97, 139, 107, 177, 232, 362, 228, 326]) := by
  decide

/-- C2 on the code: at depth 2 with index 4, the PRFs that map every word to 0, seeds 1 and 0
and every draw equal to 1, `DPFGen` returns, the two vectors of `DPFFullDomainEval` are both
zero (so their XOR at index 4 is 0), while the working buffers differ at slot 4. -/
theorem correct_at_alpha_failing_input :
    (DPFGen prf_zero prf_zero prf_zero get_trit 2 4 1 0 rand1 (zeros 112) (zeros 112)).map
      (fun ks =>
        (DPFFullDomainEval prf_zero prf_zero prf_zero ks.1 2 (zeros 9),
          DPFFullDomainEval prf_zero prf_zero prf_zero ks.2 2 (zeros 9),
          eval_parents prf_zero prf_zero prf_zero ks.1 2 (zeros 9),
          eval_parents prf_zero prf_zero prf_zero ks.2 2 (zeros 9))) =
      some
        ([0, 0, 0, 0, 0, 0, 0, 0, 0], [0, 0, 0, 0, 0, 0, 0, 0, 0],
          [0, 0, 0, 0, 1, 0, 0, 0, 0], [0, 0, 0, 0, 0, 0, 0, 0, 0]) := by
  decide

/-- C3 on the code: at depth 2, for the key with seed 1 and all correction words 2 and the
sample PRFs, the returned vector and the working buffer after the second level differ at the
indices 1, 2, 4, 5, 7 and 8. -/
theorem output_is_last_level_failing_input :
    DPFFullDomainEval prf0 prf1 prf2 key_twos 2 (zeros 9) =
      [19, 16, 28, 32, 27, 47, 46, 39, 67] ∧
    eval_parents prf0 prf1 prf2 key_twos 2 (zeros 9) =
      [19, 18, 30, 32, 25, 45, 46, 37, 65] := by
  decide

/-- C4 fails as stated: at depth 2 with trits `(2, 0)` the claimed position is
`2 * 3 + 0 = 6`; for the key with seed 1 and zero correction words the leaf of that path has
seed 34, slot 6 of the working buffer and of the returned vector holds 32, and the leaf is in
slot 2. -/
theorem leaf_position_counterexample :
    (∑ i in Finset.range 2, trits_2_0 i * 3 ^ (2 - 1 - i)) = 6 ∧
    path_seed prf0 prf1 prf2 key_plain 2 trits_2_0 2 = 34 ∧
    (eval_parents prf0 prf1 prf2 key_plain 2 (zeros 9)).getD 6 0 = 32 ∧
    (DPFFullDomainEval prf0 prf1 prf2 key_plain 2 (zeros 9)).getD 6 0 = 32 ∧
    (eval_parents prf0 prf1 prf2 key_plain 2 (zeros 9)).getD 2 0 = 34 ∧
    (DPFFullDomainEval prf0 prf1 prf2 key_plain 2 (zeros 9)).getD 2 0 = 34 := by
  refine ⟨by decide, by decide, by decide, by decide, by decide, by decide⟩

/-- C4 as amended: for trits `t 0, ..., t (size - 1)` in `{0, 1, 2}`, the node reached from the
root by taking branch `t i` at level `i` is, after the `size` levels, in slot
`sum_i t i * 3 ^ i` of the working buffer (the trit of level 0 is the least-significant digit of
the position); the slot is below `3 ^ size` and holds the seed computed along the path. -/
theorem leaf_position (P0 P1 P2 : Nat → Nat) (k : List Nat) (size : Nat) (out : List Nat)
    (t : Nat → Nat) (hn : 3 ^ size < 2 ^ 64) (ho : 3 ^ size ≤ out.length)
    (ht : ∀ i, i < size → t i < 3) :
    (∑ i in Finset.range size, t i * 3 ^ i) < 3 ^ size ∧
    (eval_parents P0 P1 P2 k size out).getD (∑ i in Finset.range size, t i * 3 ^ i) 0 =
      path_seed P0 P1 P2 k size t size := by
  rw [← path_slot_eq_sum]
  exact ⟨path_slot_lt t size ht,
    eval_levels_path P0 P1 P2 k size out hn ho t ht size (le_refl _)⟩

/-- C4 as amended, at depth 2 with trits `(2, 0)`: the slot is `2 + 0 * 3 = 2`. -/
theorem leaf_position_witness :
    (∑ i in Finset.range 2, trits_2_0 i * 3 ^ i) < 3 ^ 2 ∧
    (eval_parents prf0 prf1 prf2 key_plain 2 (zeros 9)).getD
        (∑ i in Finset.range 2, trits_2_0 i * 3 ^ i) 0 =
      path_seed prf0 prf1 prf2 key_plain 2 trits_2_0 2 :=
  leaf_position prf0 prf1 prf2 key_plain 2 (zeros 9) trits_2_0 (by norm_num) (by decide)
    (by decide)

/-- C5: with valid trits, `DPFGen` returns; each key buffer keeps its length, its first
`16 * (3 * size + 1)` bytes are the seed followed by the arrays `sCW0`, `sCW1`, `sCW2`, the bytes
past them are untouched; the seed is at offset 0 and the level-`i` words of the three arrays are
at offsets `16 + 16 * i`, `16 + 16 * size + 16 * i` and `16 + 32 * size + 16 * i`. -/
theorem DPFGen_key_layout (P0 P1 P2 : Nat → Nat) (gt : Nat → Nat → Nat → Nat) (size index : Nat)
    (seedA seedB : Nat) (rand : Nat → Nat) (kA0 kB0 : List Nat)
    (hv : ∀ i, i < size → gt index size i < 3)
    (hA : 16 * (3 * size + 1) ≤ kA0.length) (hB : 16 * (3 * size + 1) ≤ kB0.length) :
    ∃ st kA kB,
      DPFGen_loop P0 P1 P2 gt size index rand size (DPFGen_init size seedA seedB) = some st ∧
      DPFGen P0 P1 P2 gt size index seedA seedB rand kA0 kB0 = some (kA, kB) ∧
      kA.length = kA0.length ∧ kB.length = kB0.length ∧
      kA.drop (16 * (3 * size + 1)) = kA0.drop (16 * (3 * size + 1)) ∧
      kB.drop (16 * (3 * size + 1)) = kB0.drop (16 * (3 * size + 1)) ∧
      kA.take (16 * (3 * size + 1)) =
        to_bytes 16 (DPFGen_seedA seedA seedB) ++ words_bytes st.sCW0 ++ words_bytes st.sCW1 ++
          words_bytes st.sCW2 ∧
      kB.take (16 * (3 * size + 1)) =
        to_bytes 16 seedB ++ words_bytes st.sCW0 ++ words_bytes st.sCW1 ++ words_bytes st.sCW2 ∧
      (kA.drop 0).take 16 = to_bytes 16 (DPFGen_seedA seedA seedB) ∧
      (kB.drop 0).take 16 = to_bytes 16 seedB ∧
      ∀ i, i < size →
        (kA.drop (16 + 16 * i)).take 16 = to_bytes 16 (st.sCW0.getD i 0) ∧
        (kA.drop (16 + 16 * size + 16 * i)).take 16 = to_bytes 16 (st.sCW1.getD i 0) ∧
        (kA.drop (16 + 32 * size + 16 * i)).take 16 = to_bytes 16 (st.sCW2.getD i 0) ∧
        (kB.drop (16 + 16 * i)).take 16 = to_bytes 16 (st.sCW0.getD i 0) ∧
        (kB.drop (16 + 16 * size + 16 * i)).take 16 = to_bytes 16 (st.sCW1.getD i 0) ∧
        (kB.drop (16 + 32 * size + 16 * i)).take 16 = to_bytes 16 (st.sCW2.getD i 0) := by
  obtain ⟨st, hst, l0, l1, l2, hk⟩ :=
    DPFGen_spec P0 P1 P2 gt size index seedA seedB rand kA0 kB0 hv hA hB
  have pA := key_prefix_length size (DPFGen_seedA seedA seedB) _ _ _ l0 l1 l2
  have pB := key_prefix_length size seedB _ _ _ l0 l1 l2
  obtain ⟨sA, wA⟩ := key_layout_words size (DPFGen_seedA seedA seedB) st.sCW0 st.sCW1 st.sCW2
    (kA0.drop (16 * (3 * size + 1))) l0 l1 l2
  obtain ⟨sB, wB⟩ := key_layout_words size seedB st.sCW0 st.sCW1 st.sCW2
    (kB0.drop (16 * (3 * size + 1))) l0 l1 l2
  refine ⟨st, _, _, hst, hk, ?_, ?_, ?_, ?_, ?_, ?_, sA, sB, ?_⟩
  · rw [List.length_append, pA, List.length_drop]; omega
  · rw [List.length_append, pB, List.length_drop]; omega
  · nth_rewrite 1 [← pA]; rw [List.drop_left]
  · nth_rewrite 1 [← pB]; rw [List.drop_left]
  · nth_rewrite 1 [← pA]; rw [List.take_left]
  · nth_rewrite 1 [← pB]; rw [List.take_left]
  · intro i hi
    have e1 : 16 + 16 * size + 16 * i = 16 * size + 16 + 16 * i := by omega
    have e2 : 16 + 32 * size + 16 * i = 16 * 2 * size + 16 + 16 * i := by omega
    rw [e1, e2]
    exact ⟨(wA i hi).1, (wA i hi).2.1, (wA i hi).2.2, (wB i hi).1, (wB i hi).2.1, (wB i hi).2.2⟩

/-- C5, at depth 2 with index 4, identity PRFs and zeroed buffers of 112 bytes. -/
theorem DPFGen_key_layout_witness :
    ∃ st kA kB,
      DPFGen_loop prf_id prf_id prf_id get_trit 2 4 rand0 2 (DPFGen_init 2 1 0) = some st ∧
      DPFGen prf_id prf_id prf_id get_trit 2 4 1 0 rand0 (zeros 112) (zeros 112) = some (kA, kB) ∧
      kA.length = (zeros 112).length ∧ kB.length = (zeros 112).length ∧
      kA.drop (16 * (3 * 2 + 1)) = (zeros 112).drop (16 * (3 * 2 + 1)) ∧
      kB.drop (16 * (3 * 2 + 1)) = (zeros 112).drop (16 * (3 * 2 + 1)) ∧
      kA.take (16 * (3 * 2 + 1)) =
        to_bytes 16 (DPFGen_seedA 1 0) ++ words_bytes st.sCW0 ++ words_bytes st.sCW1 ++
          words_bytes st.sCW2 ∧
      kB.take (16 * (3 * 2 + 1)) =
        to_bytes 16 0 ++ words_bytes st.sCW0 ++ words_bytes st.sCW1 ++ words_bytes st.sCW2 ∧
      (kA.drop 0).take 16 = to_bytes 16 (DPFGen_seedA 1 0) ∧
      (kB.drop 0).take 16 = to_bytes 16 0 ∧
      ∀ i, i < 2 →
        (kA.drop (16 + 16 * i)).take 16 = to_bytes 16 (st.sCW0.getD i 0) ∧
        (kA.drop (16 + 16 * 2 + 16 * i)).take 16 = to_bytes 16 (st.sCW1.getD i 0) ∧
        (kA.drop (16 + 32 * 2 + 16 * i)).take 16 = to_bytes 16 (st.sCW2.getD i 0) ∧
        (kB.drop (16 + 16 * i)).take 16 = to_bytes 16 (st.sCW0.getD i 0) ∧
        (kB.drop (16 + 16 * 2 + 16 * i)).take 16 = to_bytes 16 (st.sCW1.getD i 0) ∧
        (kB.drop (16 + 32 * 2 + 16 * i)).take 16 = to_bytes 16 (st.sCW2.getD i 0) :=
  DPFGen_key_layout prf_id prf_id prf_id get_trit 2 4 1 0 rand0 (zeros 112) (zeros 112)
    (by decide) (by decide) (by decide)

/-- C6: with valid trits, `DPFGen` returns two keys whose bytes from offset 16 to the end of the
key (`16 * (3 * size + 1)` bytes) are equal, and whose leading 16 bytes differ, so that the keys
differ. -/
theorem DPFGen_keys_share_cw (P0 P1 P2 : Nat → Nat) (gt : Nat → Nat → Nat → Nat)
    (size index : Nat) (seedA seedB : Nat) (rand : Nat → Nat) (kA0 kB0 : List Nat)
    (hv : ∀ i, i < size → gt index size i < 3)
    (hA : 16 * (3 * size + 1) ≤ kA0.length) (hB : 16 * (3 * size + 1) ≤ kB0.length) :
    ∃ kA kB,
      DPFGen P0 P1 P2 gt size index seedA seedB rand kA0 kB0 = some (kA, kB) ∧
      (kA.take (16 * (3 * size + 1))).drop 16 = (kB.take (16 * (3 * size + 1))).drop 16 ∧
      kA.take 16 ≠ kB.take 16 ∧ kA ≠ kB := by
  obtain ⟨st, -, l0, l1, l2, hk⟩ :=
    DPFGen_spec P0 P1 P2 gt size index seedA seedB rand kA0 kB0 hv hA hB
  have pA := key_prefix_length size (DPFGen_seedA seedA seedB) _ _ _ l0 l1 l2
  have pB := key_prefix_length size seedB _ _ _ l0 l1 l2
  have hne : to_bytes 16 (DPFGen_seedA seedA seedB) ≠ to_bytes 16 seedB := by
    apply to_bytes_ne
    have h := seedA_lsb seedA seedB
    rw [get_lsb_xor] at h
    omega
  have tA : ∀ rest : List Nat,
      (to_bytes 16 (DPFGen_seedA seedA seedB) ++ words_bytes st.sCW0 ++ words_bytes st.sCW1 ++
        words_bytes st.sCW2 ++ rest).take 16 = to_bytes 16 (DPFGen_seedA seedA seedB) := by
    intro rest
    simp only [List.append_assoc]
    nth_rewrite 1 [← length_to_bytes 16 (DPFGen_seedA seedA seedB)]
    rw [List.take_left]
  have tB : ∀ rest : List Nat,
      (to_bytes 16 seedB ++ words_bytes st.sCW0 ++ words_bytes st.sCW1 ++
        words_bytes st.sCW2 ++ rest).take 16 = to_bytes 16 seedB := by
    intro rest
    simp only [List.append_assoc]
    nth_rewrite 1 [← length_to_bytes 16 seedB]
    rw [List.take_left]
  have hhead : (to_bytes 16 (DPFGen_seedA seedA seedB) ++ words_bytes st.sCW0 ++
      words_bytes st.sCW1 ++ words_bytes st.sCW2 ++ kA0.drop (16 * (3 * size + 1))).take 16 ≠
      (to_bytes 16 seedB ++ words_bytes st.sCW0 ++ words_bytes st.sCW1 ++
        words_bytes st.sCW2 ++ kB0.drop (16 * (3 * size + 1))).take 16 := by
    rw [tA, tB]
    exact hne
  refine ⟨_, _, hk, ?_, hhead, fun he => hhead (by rw [he])⟩
  have dA : ∀ s : Nat, (to_bytes 16 s ++ words_bytes st.sCW0 ++ words_bytes st.sCW1 ++
      words_bytes st.sCW2).drop 16 =
      words_bytes st.sCW0 ++ words_bytes st.sCW1 ++ words_bytes st.sCW2 := by
    intro s
    simp only [List.append_assoc]
    nth_rewrite 1 [← length_to_bytes 16 s]
    rw [List.drop_left]
  nth_rewrite 1 [← pA]
  nth_rewrite 2 [← pB]
  rw [List.take_left, List.take_left, dA, dA]

/-- C6, at depth 2 with index 4, identity PRFs and zeroed buffers of 112 bytes. -/
theorem DPFGen_keys_share_cw_witness :
    ∃ kA kB,
      DPFGen prf_id prf_id prf_id get_trit 2 4 1 0 rand0 (zeros 112) (zeros 112) = some (kA, kB) ∧
      (kA.take (16 * (3 * 2 + 1))).drop 16 = (kB.take (16 * (3 * 2 + 1))).drop 16 ∧
      kA.take 16 ≠ kB.take 16 ∧ kA ≠ kB :=
  DPFGen_keys_share_cw prf_id prf_id prf_id get_trit 2 4 1 0 rand0 (zeros 112) (zeros 112)
    (by decide) (by decide) (by decide)

/-- C7: with valid trits and 128-bit sampled seeds, the seeds stored in the two keys have
least-significant bits that XOR to 1; the seed of `kB` is the sampled `seedB`; the seed of `kA`
agrees with the sampled `seedA` on every bit above the least-significant one. -/
theorem DPFGen_root_control_bit (P0 P1 P2 : Nat → Nat) (gt : Nat → Nat → Nat → Nat)
    (size index : Nat) (seedA seedB : Nat) (rand : Nat → Nat) (kA0 kB0 : List Nat)
    (hv : ∀ i, i < size → gt index size i < 3)
    (hA : 16 * (3 * size + 1) ≤ kA0.length) (hB : 16 * (3 * size + 1) ≤ kB0.length)
    (hsA : seedA < 2 ^ 128) (hsB : seedB < 2 ^ 128) :
    ∃ kA kB,
      DPFGen P0 P1 P2 gt size index seedA seedB rand kA0 kB0 = some (kA, kB) ∧
      get_lsb (read_word kA 0) ^^^ get_lsb (read_word kB 0) = 1 ∧
      read_word kB 0 = seedB ∧
      read_word kA 0 / 2 = seedA / 2 := by
  obtain ⟨st, -, l0, l1, l2, hk⟩ :=
    DPFGen_spec P0 P1 P2 gt size index seedA seedB rand kA0 kB0 hv hA hB
  have rA := (key_layout_read size (DPFGen_seedA seedA seedB) st.sCW0 st.sCW1 st.sCW2
    (kA0.drop (16 * (3 * size + 1))) l0 l1 l2).1
  have rB := (key_layout_read size seedB st.sCW0 st.sCW1 st.sCW2
    (kB0.drop (16 * (3 * size + 1))) l0 l1 l2).1
  rw [Nat.mod_eq_of_lt (seedA_lt seedA seedB hsA)] at rA
  rw [Nat.mod_eq_of_lt hsB] at rB
  refine ⟨_, _, hk, ?_, rB, ?_⟩
  · rw [rA, rB]
    exact get_lsb_xor_split _ _ (seedA_lsb seedA seedB)
  · rw [rA]
    exact seedA_div_two seedA seedB

/-- C7, at depth 2 with index 4, sampled seeds 6 and 8 (both even, so `seedA` is adjusted). -/
theorem DPFGen_root_control_bit_witness :
    ∃ kA kB,
      DPFGen prf0 prf1 prf2 get_trit 2 4 6 8 rand10 (zeros 112) (zeros 112) = some (kA, kB) ∧
      get_lsb (read_word kA 0) ^^^ get_lsb (read_word kB 0) = 1 ∧
      read_word kB 0 = 8 ∧
      read_word kA 0 / 2 = 6 / 2 :=
  DPFGen_root_control_bit prf0 prf1 prf2 get_trit 2 4 6 8 rand10 (zeros 112) (zeros 112)
    (by decide) (by decide) (by decide) (by norm_num) (by norm_num)

/-- C8 fails as stated: at depth 1 with index 0, identity PRFs, seeds 1 and 0 and the random
word 0, `DPFGen` returns and the correction word it stores for the branch of the trit at level 0
has least-significant bit 0. -/
theorem on_path_cw_lsb_counterexample :
    (DPFGen prf_id prf_id prf_id get_trit 1 0 1 0 rand0 (zeros 64) (zeros 64)).map
      (fun ks => get_lsb (read_word ks.1 (cw_offset 1 (get_trit 0 1 0) 0))) = some 0 := by
  decide

/-- C8 as amended: with valid trits `DPFGen` returns, and at every level `i` the word stored for
the branch of the trit makes the XOR of the two on-path children odd: with `parentA`, `parentB`
the pair of parents after `i` iterations and `t` the trit, the least-significant bit of
`P_t(parentA) ^ P_t(parentB) ^ CW_t[i]` is 1.  Both keys hold the same word. -/
theorem DPFGen_on_path_cw (P0 P1 P2 : Nat → Nat) (gt : Nat → Nat → Nat → Nat)
    (size index : Nat) (seedA seedB : Nat) (rand : Nat → Nat) (kA0 kB0 : List Nat)
    (hv : ∀ i, i < size → gt index size i < 3)
    (hA : 16 * (3 * size + 1) ≤ kA0.length) (hB : 16 * (3 * size + 1) ≤ kB0.length) :
    ∃ kA kB,
      DPFGen P0 P1 P2 gt size index seedA seedB rand kA0 kB0 = some (kA, kB) ∧
      ∀ i, i < size →
        ∃ st, DPFGen_loop P0 P1 P2 gt size index rand i (DPFGen_init size seedA seedB) = some st ∧
          get_lsb
            (prf_sel P0 P1 P2 (gt index size i) st.parentA ^^^
              prf_sel P0 P1 P2 (gt index size i) st.parentB ^^^
              read_word kA (cw_offset size (gt index size i) i)) = 1 ∧
          read_word kB (cw_offset size (gt index size i) i) =
            read_word kA (cw_offset size (gt index size i) i) := by
  obtain ⟨stn, hstn, l0, l1, l2, hk⟩ :=
    DPFGen_spec P0 P1 P2 gt size index seedA seedB rand kA0 kB0 hv hA hB
  refine ⟨_, _, hk, fun i hi => ?_⟩
  obtain ⟨st, hst, m0, m1, m2, -⟩ := DPFGen_loop_spec P0 P1 P2 gt size index rand
    (DPFGen_init size seedA seedB) i (fun j hj => hv j (by omega))
  simp only [DPFGen_init, List.length_replicate] at m0 m1 m2
  obtain ⟨st1, hst1, -, -, -, -, hcw, -, -⟩ :=
    DPFGen_body_spec P0 P1 P2 gt size index rand i st (hv i hi)
  have hnext : DPFGen_loop P0 P1 P2 gt size index rand (i + 1) (DPFGen_init size seedA seedB) =
      some st1 := by
    rw [DPFGen_loop_succ _ _ _ _ _ _ _ _ _ _ hst, hst1]
  have hsize : i + 1 + (size - (i + 1)) = size := by omega
  have hstable := DPFGen_loop_stable P0 P1 P2 gt size index rand
    (DPFGen_init size seedA seedB) (i + 1) (size - (i + 1))
    (fun j hj => hv j (by omega)) st1 stn hnext (by rw [hsize]; exact hstn)
    (gt index size i) i (by omega)
  have hval := hcw (by omega) (by omega) (by omega) (gt index size i) (hv i hi)
  rw [if_pos rfl] at hval
  have rA := key_layout_read_sel size (DPFGen_seedA seedA seedB) stn
    (kA0.drop (16 * (3 * size + 1))) l0 l1 l2 (gt index size i) i (hv i hi) hi
  have rB := key_layout_read_sel size seedB stn
    (kB0.drop (16 * (3 * size + 1))) l0 l1 l2 (gt index size i) i (hv i hi) hi
  refine ⟨st, hst, ?_, by rw [rA, rB]⟩
  rw [rA, hstable, hval]
  have h1 := on_path_word_lsb (prf_sel P0 P1 P2 (gt index size i) st.parentA)
    (prf_sel P0 P1 P2 (gt index size i) st.parentB) (rand i)
  rw [get_lsb_xor] at h1 ⊢
  have h2 : on_path_word (prf_sel P0 P1 P2 (gt index size i) st.parentA)
      (prf_sel P0 P1 P2 (gt index size i) st.parentB) (rand i) % 2 ^ 128 % 2 =
      on_path_word (prf_sel P0 P1 P2 (gt index size i) st.parentA)
        (prf_sel P0 P1 P2 (gt index size i) st.parentB) (rand i) % 2 :=
    Nat.mod_mod_of_dvd _ (by norm_num)
  omega

/-- C8 as amended, at depth 2 with index 4, the sample PRFs, seeds 6 and 9. -/
theorem DPFGen_on_path_cw_witness :
    ∃ kA kB,
      DPFGen prf0 prf1 prf2 get_trit 2 4 6 9 rand10 (zeros 112) (zeros 112) = some (kA, kB) ∧
      ∀ i, i < 2 →
        ∃ st, DPFGen_loop prf0 prf1 prf2 get_trit 2 4 rand10 i (DPFGen_init 2 6 9) = some st ∧
          get_lsb
            (prf_sel prf0 prf1 prf2 (get_trit 4 2 i) st.parentA ^^^
              prf_sel prf0 prf1 prf2 (get_trit 4 2 i) st.parentB ^^^
              read_word kA (cw_offset 2 (get_trit 4 2 i) i)) = 1 ∧
          read_word kB (cw_offset 2 (get_trit 4 2 i) i) =
            read_word kA (cw_offset 2 (get_trit 4 2 i) i) :=
  DPFGen_on_path_cw prf0 prf1 prf2 get_trit 2 4 6 9 rand10 (zeros 112) (zeros 112)
    (by decide) (by decide) (by decide)

/-- C9: at depth 1, for every index `alpha < 3` that the trit decoder maps to itself, every
PRFs and draws that are 128-bit words: `DPFGen` returns two keys, the vectors that
`DPFFullDomainEval` writes for them have length 3, and their XOR is nonzero at index `alpha` and
zero at the other two indices. -/
theorem depth_one_scenario (P0 P1 P2 : Nat → Nat) (gt : Nat → Nat → Nat → Nat) (alpha : Nat)
    (seedA seedB : Nat) (rand : Nat → Nat) (kA0 kB0 outA0 outB0 : List Nat)
    (h0 : ∀ x, P0 x < 2 ^ 128) (h1 : ∀ x, P1 x < 2 ^ 128) (h2 : ∀ x, P2 x < 2 ^ 128)
    (hsA : seedA < 2 ^ 128) (hsB : seedB < 2 ^ 128) (hr : rand 0 < 2 ^ 128)
    (hα : alpha < 3) (hgt : gt alpha 1 0 = alpha)
    (hkA : 16 * (3 * 1 + 1) ≤ kA0.length) (hkB : 16 * (3 * 1 + 1) ≤ kB0.length)
    (hoA : outA0.length = 3) (hoB : outB0.length = 3) :
    ∃ kA kB,
      DPFGen P0 P1 P2 gt 1 alpha seedA seedB rand kA0 kB0 = some (kA, kB) ∧
      (DPFFullDomainEval P0 P1 P2 kA 1 outA0).length = 3 ∧
      (DPFFullDomainEval P0 P1 P2 kB 1 outB0).length = 3 ∧
      ∀ i, i < 3 →
        ((DPFFullDomainEval P0 P1 P2 kA 1 outA0).getD i 0 ^^^
            (DPFFullDomainEval P0 P1 P2 kB 1 outB0).getD i 0 ≠ 0 ↔ i = alpha) := by
  have hv : ∀ i, i < 1 → gt alpha 1 i < 3 := by
    intro i hi
    obtain rfl : i = 0 := by omega
    rw [hgt]
    exact hα
  obtain ⟨st, hst, l0, l1, l2, hk⟩ :=
    DPFGen_spec P0 P1 P2 gt 1 alpha seedA seedB rand kA0 kB0 hv hkA hkB
  obtain ⟨st1, hst1, -, -, -, -, hcw, -, -⟩ :=
    DPFGen_body_spec P0 P1 P2 gt 1 alpha rand 0 (DPFGen_init 1 seedA seedB) (hv 0 (by norm_num))
  have hloop : DPFGen_loop P0 P1 P2 gt 1 alpha rand 1 (DPFGen_init 1 seedA seedB) = some st1 := by
    rw [DPFGen_loop_succ P0 P1 P2 gt 1 alpha rand 0 (DPFGen_init 1 seedA seedB)
      (DPFGen_init 1 seedA seedB) rfl, hst1]
  obtain rfl : st = st1 := by
    rw [hst] at hloop
    exact Option.some.inj hloop
  have hcw1 := hcw (by simp [DPFGen_init]) (by simp [DPFGen_init]) (by simp [DPFGen_init])
  rw [hgt] at hcw1
  simp only [DPFGen_init] at hcw1
  have rsA := (key_layout_read 1 (DPFGen_seedA seedA seedB) st.sCW0 st.sCW1 st.sCW2
    (kA0.drop (16 * (3 * 1 + 1))) l0 l1 l2).1
  have rsB := (key_layout_read 1 seedB st.sCW0 st.sCW1 st.sCW2
    (kB0.drop (16 * (3 * 1 + 1))) l0 l1 l2).1
  rw [Nat.mod_eq_of_lt (seedA_lt seedA seedB hsA)] at rsA
  rw [Nat.mod_eq_of_lt hsB] at rsB
  have hlt : ∀ b, b < 3 → cw_sel st b 0 < 2 ^ 128 := by
    intro b hb
    rw [hcw1 b hb]
    split_ifs
    · exact on_path_word_lt _ _ _ hr
    · exact Nat.xor_lt_two_pow (prf_sel_lt P0 P1 P2 h0 h1 h2 _ _) (prf_sel_lt P0 P1 P2 h0 h1 h2 _ _)
  refine ⟨_, _, hk, ?_, ?_, ?_⟩
  · rw [length_DPFFullDomainEval _ _ _ _ _ _ (by norm_num) (by rw [hoA]; norm_num), hoA]
  · rw [length_DPFFullDomainEval _ _ _ _ _ _ (by norm_num) (by rw [hoB]; norm_num), hoB]
  · intro b hb
    have rA := key_layout_read_sel 1 (DPFGen_seedA seedA seedB) st
      (kA0.drop (16 * (3 * 1 + 1))) l0 l1 l2 b 0 hb (by norm_num)
    have rB := key_layout_read_sel 1 seedB st
      (kB0.drop (16 * (3 * 1 + 1))) l0 l1 l2 b 0 hb (by norm_num)
    rw [Nat.mod_eq_of_lt (hlt b hb)] at rA rB
    rw [DPFFullDomainEval_depth_one P0 P1 P2 _ outA0 (by omega) b hb,
      DPFFullDomainEval_depth_one P0 P1 P2 _ outB0 (by omega) b hb, rsA, rsB,
      child_seed_xor P0 P1 P2 _ _ 1 0 b _ _ _ rA rB (seedA_lsb seedA seedB), hcw1 b hb]
    by_cases hba : b = alpha
    · rw [if_pos hba]
      exact ⟨fun _ => hba, fun _ => ne_zero_of_get_lsb _ (on_path_word_lsb _ _ _)⟩
    · rw [if_neg hba, xor_self_cancel]
      exact ⟨fun h => absurd rfl h, fun h => absurd h hba⟩

/-- C9, at index 2 with the sample PRFs, seeds 6 and 9 and zeroed buffers. -/
theorem depth_one_scenario_witness :
    ∃ kA kB,
      DPFGen prf0 prf1 prf2 get_trit 1 2 6 9 rand10 (zeros 64) (zeros 64) = some (kA, kB) ∧
      (DPFFullDomainEval prf0 prf1 prf2 kA 1 (zeros 3)).length = 3 ∧
      (DPFFullDomainEval prf0 prf1 prf2 kB 1 (zeros 3)).length = 3 ∧
      ∀ i, i < 3 →
        ((DPFFullDomainEval prf0 prf1 prf2 kA 1 (zeros 3)).getD i 0 ^^^
            (DPFFullDomainEval prf0 prf1 prf2 kB 1 (zeros 3)).getD i 0 ≠ 0 ↔ i = 2) :=
  depth_one_scenario prf0 prf1 prf2 get_trit 2 6 9 rand10 (zeros 64) (zeros 64) (zeros 3)
    (zeros 3) (fun x => Nat.mod_lt _ (by norm_num)) (fun x => Nat.mod_lt _ (by norm_num))
    (fun x => Nat.mod_lt _ (by norm_num)) (by norm_num) (by norm_num) (by norm_num [rand10])
    (by norm_num) (by decide) (by decide) (by decide) (by decide) (by decide)

/-- C10 fails as stated: at depth 1 the index 3 is not below `3 ^ 1`, and `DPFGen` returns two
keys, the same keys as for index 0. -/
theorem domain_overflow_counterexample :
    3 ^ 1 ≤ 3 ∧
    (DPFGen prf_id prf_id prf_id get_trit 1 3 1 0 rand0 (zeros 64) (zeros 64)).isSome = true ∧
    DPFGen prf_id prf_id prf_id get_trit 1 3 1 0 rand0 (zeros 64) (zeros 64) =
      DPFGen prf_id prf_id prf_id get_trit 1 0 1 0 rand0 (zeros 64) (zeros 64) := by
  decide

/-- C10 as amended: `DPFGen` makes no check of the index against `3 ^ size`; for an index that
is not below `3 ^ size` it returns two keys whenever the trit decoder yields a value in
`{0, 1, 2}` at every level. -/
theorem DPFGen_no_domain_check (P0 P1 P2 : Nat → Nat) (gt : Nat → Nat → Nat → Nat)
    (size index : Nat) (seedA seedB : Nat) (rand : Nat → Nat) (kA0 kB0 : List Nat)
    (_hge : 3 ^ size ≤ index)
    (hv : ∀ i, i < size → gt index size i < 3) :
    ∃ kA kB, DPFGen P0 P1 P2 gt size index seedA seedB rand kA0 kB0 = some (kA, kB) := by
  obtain ⟨st, hst, -⟩ :=
    DPFGen_loop_spec P0 P1 P2 gt size index rand (DPFGen_init size seedA seedB) size hv
  exact ⟨DPFGen_write size (DPFGen_seedA seedA seedB) st kA0, DPFGen_write size seedB st kB0,
    by simp only [DPFGen, hst]⟩

/-- C10 as amended, at depth 2 with index 9, which is `3 ^ 2`, and the trit decoder of the
spec. -/
theorem DPFGen_no_domain_check_witness :
    ∃ kA kB, DPFGen prf0 prf1 prf2 get_trit 2 9 6 9 rand10 (zeros 112) (zeros 112) =
      some (kA, kB) :=
  DPFGen_no_domain_check prf0 prf1 prf2 get_trit 2 9 6 9 rand10 (zeros 112) (zeros 112)
    (by norm_num) (fun i _ => get_trit_lt 9 2 i)

/-- C11: `DPFGen` calls `exit` exactly when at some level `i < size` the trit is not in
`{0, 1, 2}`; in that case both key buffers are left as the caller passed them; otherwise the
buffers on termination are the two returned keys, whose first `16 * (3 * size + 1)` bytes are
the seed followed by the three arrays of correction words. -/
theorem DPFGen_fail_fast (P0 P1 P2 : Nat → Nat) (gt : Nat → Nat → Nat → Nat) (size index : Nat)
    (seedA seedB : Nat) (rand : Nat → Nat) (kA0 kB0 : List Nat)
    (hA : 16 * (3 * size + 1) ≤ kA0.length) (hB : 16 * (3 * size + 1) ≤ kB0.length) :
    (DPFGen P0 P1 P2 gt size index seedA seedB rand kA0 kB0 = none ↔
      ∃ i, i < size ∧ ¬ gt index size i < 3) ∧
    (DPFGen P0 P1 P2 gt size index seedA seedB rand kA0 kB0 = none →
      DPFGen_buffers P0 P1 P2 gt size index seedA seedB rand kA0 kB0 = (kA0, kB0)) ∧
    ∀ kA kB, DPFGen P0 P1 P2 gt size index seedA seedB rand kA0 kB0 = some (kA, kB) →
      DPFGen_buffers P0 P1 P2 gt size index seedA seedB rand kA0 kB0 = (kA, kB) ∧
      ∃ stn,
        DPFGen_loop P0 P1 P2 gt size index rand size (DPFGen_init size seedA seedB) = some stn ∧
        kA.take (16 * (3 * size + 1)) =
          to_bytes 16 (DPFGen_seedA seedA seedB) ++ words_bytes stn.sCW0 ++
            words_bytes stn.sCW1 ++ words_bytes stn.sCW2 ∧
        kB.take (16 * (3 * size + 1)) =
          to_bytes 16 seedB ++ words_bytes stn.sCW0 ++ words_bytes stn.sCW1 ++
            words_bytes stn.sCW2 := by
  have hnone : DPFGen P0 P1 P2 gt size index seedA seedB rand kA0 kB0 = none ↔
      DPFGen_loop P0 P1 P2 gt size index rand size (DPFGen_init size seedA seedB) = none := by
    unfold DPFGen
    cases DPFGen_loop P0 P1 P2 gt size index rand size (DPFGen_init size seedA seedB) <;> simp
  refine ⟨hnone.trans (DPFGen_loop_none_iff _ _ _ _ _ _ _ _ _), fun h => ?_, fun kA kB h => ?_⟩
  · unfold DPFGen_buffers
    rw [hnone.mp h]
  · have hv : ∀ i, i < size → gt index size i < 3 := by
      intro i hi
      by_contra hc
      have hn := (hnone.trans (DPFGen_loop_none_iff _ _ _ _ _ _ _ _ _)).mpr ⟨i, hi, hc⟩
      rw [hn] at h
      cases h
    obtain ⟨stn, hstn, l0, l1, l2, hk⟩ :=
      DPFGen_spec P0 P1 P2 gt size index seedA seedB rand kA0 kB0 hv hA hB
    have pA := key_prefix_length size (DPFGen_seedA seedA seedB) _ _ _ l0 l1 l2
    have pB := key_prefix_length size seedB _ _ _ l0 l1 l2
    rw [hk] at h
    obtain ⟨rfl, rfl⟩ := Prod.mk.inj (Option.some.inj h)
    refine ⟨?_, stn, hstn, ?_, ?_⟩
    · unfold DPFGen_buffers
      simp only [hstn]
      rw [DPFGen_write_eq size _ stn kA0 l0 l1 l2 hA, DPFGen_write_eq size _ stn kB0 l0 l1 l2 hB]
    · nth_rewrite 1 [← pA]; rw [List.take_left]
    · nth_rewrite 1 [← pB]; rw [List.take_left]

/-- C11, at depth 2 with a trit decoder that yields 3 at level 1. -/
theorem DPFGen_fail_fast_witness :
    (DPFGen prf0 prf1 prf2 gt_bad 2 4 6 9 rand10 (zeros 112) (zeros 112) = none ↔
      ∃ i, i < 2 ∧ ¬ gt_bad 4 2 i < 3) ∧
    (DPFGen prf0 prf1 prf2 gt_bad 2 4 6 9 rand10 (zeros 112) (zeros 112) = none →
      DPFGen_buffers prf0 prf1 prf2 gt_bad 2 4 6 9 rand10 (zeros 112) (zeros 112) =
        (zeros 112, zeros 112)) ∧
    ∀ kA kB, DPFGen prf0 prf1 prf2 gt_bad 2 4 6 9 rand10 (zeros 112) (zeros 112) = some (kA, kB) →
      DPFGen_buffers prf0 prf1 prf2 gt_bad 2 4 6 9 rand10 (zeros 112) (zeros 112) = (kA, kB) ∧
      ∃ stn,
        DPFGen_loop prf0 prf1 prf2 gt_bad 2 4 rand10 2 (DPFGen_init 2 6 9) = some stn ∧
        kA.take (16 * (3 * 2 + 1)) =
          to_bytes 16 (DPFGen_seedA 6 9) ++ words_bytes stn.sCW0 ++
            words_bytes stn.sCW1 ++ words_bytes stn.sCW2 ∧
        kB.take (16 * (3 * 2 + 1)) =
          to_bytes 16 9 ++ words_bytes stn.sCW0 ++ words_bytes stn.sCW1 ++
            words_bytes stn.sCW2 :=
  DPFGen_fail_fast prf0 prf1 prf2 gt_bad 2 4 6 9 rand10 (zeros 112) (zeros 112) (by decide)
    (by decide)

/-- C13: with valid trits, 128-bit PRFs and draws, `DPFGen` returns two keys, and after every
number `i ≤ size` of levels of `DPFFullDomainEval` on `kA` and on `kB`: in the slot
`p_i = sum_{k < i} t_k * 3 ^ k` of the path of the trits the two control bits XOR to 1, and in
every other slot below `3 ^ i` the two working buffers hold the same seed. -/
theorem eval_level_invariant (P0 P1 P2 : Nat → Nat) (gt : Nat → Nat → Nat → Nat)
    (size index : Nat) (seedA seedB : Nat) (rand : Nat → Nat) (kA0 kB0 outA outB : List Nat)
    (h0 : ∀ x, P0 x < 2 ^ 128) (h1 : ∀ x, P1 x < 2 ^ 128) (h2 : ∀ x, P2 x < 2 ^ 128)
    (hsA : seedA < 2 ^ 128) (hsB : seedB < 2 ^ 128) (hr : ∀ i, i < size → rand i < 2 ^ 128)
    (hv : ∀ i, i < size → gt index size i < 3)
    (hkA : 16 * (3 * size + 1) ≤ kA0.length) (hkB : 16 * (3 * size + 1) ≤ kB0.length)
    (hn : 3 ^ size < 2 ^ 64) (hoA : 3 ^ size ≤ outA.length) (hoB : 3 ^ size ≤ outB.length) :
    ∃ kA kB,
      DPFGen P0 P1 P2 gt size index seedA seedB rand kA0 kB0 = some (kA, kB) ∧
      ∀ i, i ≤ size →
        get_lsb
            ((eval_levels P0 P1 P2 kA size i (eval_init kA size outA)).parents.getD
              (∑ k in Finset.range i, gt index size k * 3 ^ k) 0) ^^^
          get_lsb
            ((eval_levels P0 P1 P2 kB size i (eval_init kB size outB)).parents.getD
              (∑ k in Finset.range i, gt index size k * 3 ^ k) 0) = 1 ∧
        ∀ j, j < 3 ^ i → j ≠ ∑ k in Finset.range i, gt index size k * 3 ^ k →
          (eval_levels P0 P1 P2 kA size i (eval_init kA size outA)).parents.getD j 0 =
            (eval_levels P0 P1 P2 kB size i (eval_init kB size outB)).parents.getD j 0 := by
  obtain ⟨kA, kB, hk, hall⟩ := eval_pair_invariant P0 P1 P2 gt size index seedA seedB rand kA0
    kB0 outA outB h0 h1 h2 hsA hsB hr hv hkA hkB hn hoA hoB
  refine ⟨kA, kB, hk, fun i hi => ?_⟩
  obtain ⟨st, hst, pA, pB, hoff⟩ := hall i hi
  rw [← path_slot_eq_sum, pA, pB]
  exact ⟨get_lsb_xor_split _ _ (DPFGen_parents_lsb P0 P1 P2 gt size index seedA seedB rand i
    (fun j hj => hv j (by omega)) st hst), hoff⟩

/-- C13, at depth 2 with index 4, the sample PRFs, seeds 6 and 9, draws 10 and 11. -/
theorem eval_level_invariant_witness :
    ∃ kA kB,
      DPFGen prf0 prf1 prf2 get_trit 2 4 6 9 rand10 (zeros 112) (zeros 112) = some (kA, kB) ∧
      ∀ i, i ≤ 2 →
        get_lsb
            ((eval_levels prf0 prf1 prf2 kA 2 i (eval_init kA 2 (zeros 9))).parents.getD
              (∑ k in Finset.range i, get_trit 4 2 k * 3 ^ k) 0) ^^^
          get_lsb
            ((eval_levels prf0 prf1 prf2 kB 2 i (eval_init kB 2 (zeros 9))).parents.getD
              (∑ k in Finset.range i, get_trit 4 2 k * 3 ^ k) 0) = 1 ∧
        ∀ j, j < 3 ^ i → j ≠ ∑ k in Finset.range i, get_trit 4 2 k * 3 ^ k →
          (eval_levels prf0 prf1 prf2 kA 2 i (eval_init kA 2 (zeros 9))).parents.getD j 0 =
            (eval_levels prf0 prf1 prf2 kB 2 i (eval_init kB 2 (zeros 9))).parents.getD j 0 :=
  eval_level_invariant prf0 prf1 prf2 get_trit 2 4 6 9 rand10 (zeros 112) (zeros 112) (zeros 9)
    (zeros 9) (fun _ => Nat.mod_lt _ (by norm_num)) (fun _ => Nat.mod_lt _ (by norm_num))
    (fun _ => Nat.mod_lt _ (by norm_num)) (by norm_num) (by norm_num)
    (fun i hi => by unfold rand10; omega) (by decide) (by decide) (by decide) (by norm_num)
    (by decide) (by decide)

/-- C14: with valid trits the loop of `DPFGen` runs to its end, the control bits of `parentA`
and `parentB` XOR to 1 before the first iteration and after every iteration, and after
iteration `i` the XOR of the two parents is `P_t(parentA) ^ P_t(parentB) ^ CW_t[i]`, with the
parents at the start of the iteration, `t` the trit of the level and `CW_t[i]` the word stored
for the branch of the trit. -/
theorem DPFGen_control_bit_invariant (P0 P1 P2 : Nat → Nat) (gt : Nat → Nat → Nat → Nat)
    (size index : Nat) (seedA seedB : Nat) (rand : Nat → Nat)
    (hv : ∀ i, i < size → gt index size i < 3) :
    ∃ stn,
      DPFGen_loop P0 P1 P2 gt size index rand size (DPFGen_init size seedA seedB) = some stn ∧
      (∀ i, i ≤ size →
        ∃ st, DPFGen_loop P0 P1 P2 gt size index rand i (DPFGen_init size seedA seedB) = some st ∧
          get_lsb st.parentA ^^^ get_lsb st.parentB = 1) ∧
      ∀ i, i < size →
        ∃ st st1,
          DPFGen_loop P0 P1 P2 gt size index rand i (DPFGen_init size seedA seedB) = some st ∧
          DPFGen_loop P0 P1 P2 gt size index rand (i + 1) (DPFGen_init size seedA seedB) =
            some st1 ∧
          st1.parentA ^^^ st1.parentB =
            prf_sel P0 P1 P2 (gt index size i) st.parentA ^^^
              prf_sel P0 P1 P2 (gt index size i) st.parentB ^^^
              cw_sel stn (gt index size i) i := by
  obtain ⟨stn, hstn, -⟩ := DPFGen_loop_spec P0 P1 P2 gt size index rand
    (DPFGen_init size seedA seedB) size hv
  refine ⟨stn, hstn, fun i hi => ?_, fun i hi => ?_⟩
  · obtain ⟨st, hst, -⟩ := DPFGen_loop_spec P0 P1 P2 gt size index rand
      (DPFGen_init size seedA seedB) i (fun j hj => hv j (by omega))
    exact ⟨st, hst, get_lsb_xor_split _ _ (DPFGen_parents_lsb P0 P1 P2 gt size index seedA seedB
      rand i (fun j hj => hv j (by omega)) st hst)⟩
  · obtain ⟨st, hst, -⟩ := DPFGen_loop_spec P0 P1 P2 gt size index rand
      (DPFGen_init size seedA seedB) i (fun j hj => hv j (by omega))
    obtain ⟨st1, hst1, -⟩ := DPFGen_loop_spec P0 P1 P2 gt size index rand
      (DPFGen_init size seedA seedB) (i + 1) (fun j hj => hv j (by omega))
    obtain ⟨gA, gB⟩ := DPFGen_parent_step P0 P1 P2 gt size index rand _ i (hv i hi) st st1 hst hst1
    have hcw := DPFGen_cw_value P0 P1 P2 gt size index seedA seedB rand hv i hi st stn hst hstn
      (gt index size i) (hv i hi)
    rw [if_pos rfl] at hcw
    refine ⟨st, st1, hst, hst1, ?_⟩
    rw [gA, gB, hcw]
    split_ifs
    · rw [xor_right_comm3]
    · rw [← Nat.xor_assoc]

/-- C14, at depth 2 with index 4, the sample PRFs, seeds 6 and 9, draws 10 and 11. -/
theorem DPFGen_control_bit_invariant_witness :
    ∃ stn,
      DPFGen_loop prf0 prf1 prf2 get_trit 2 4 rand10 2 (DPFGen_init 2 6 9) = some stn ∧
      (∀ i, i ≤ 2 →
        ∃ st, DPFGen_loop prf0 prf1 prf2 get_trit 2 4 rand10 i (DPFGen_init 2 6 9) = some st ∧
          get_lsb st.parentA ^^^ get_lsb st.parentB = 1) ∧
      ∀ i, i < 2 →
        ∃ st st1,
          DPFGen_loop prf0 prf1 prf2 get_trit 2 4 rand10 i (DPFGen_init 2 6 9) = some st ∧
          DPFGen_loop prf0 prf1 prf2 get_trit 2 4 rand10 (i + 1) (DPFGen_init 2 6 9) =
            some st1 ∧
          st1.parentA ^^^ st1.parentB =
            prf_sel prf0 prf1 prf2 (get_trit 4 2 i) st.parentA ^^^
              prf_sel prf0 prf1 prf2 (get_trit 4 2 i) st.parentB ^^^
              cw_sel stn (get_trit 4 2 i) i :=
  DPFGen_control_bit_invariant prf0 prf1 prf2 get_trit 2 4 6 9 rand10 (by decide)

/-- C15: with valid trits, 128-bit PRFs and draws, `DPFGen` returns two keys, and for every
`i ≤ size` the pair `(parentA, parentB)` of `DPFGen` after `i` iterations is the pair of seeds
that `DPFFullDomainEval` holds after `i` levels in slot `p_i = sum_{k < i} t_k * 3 ^ k` when run
on `kA` and on `kB`. -/
theorem DPFGen_tracks_path (P0 P1 P2 : Nat → Nat) (gt : Nat → Nat → Nat → Nat)
    (size index : Nat) (seedA seedB : Nat) (rand : Nat → Nat) (kA0 kB0 outA outB : List Nat)
    (h0 : ∀ x, P0 x < 2 ^ 128) (h1 : ∀ x, P1 x < 2 ^ 128) (h2 : ∀ x, P2 x < 2 ^ 128)
    (hsA : seedA < 2 ^ 128) (hsB : seedB < 2 ^ 128) (hr : ∀ i, i < size → rand i < 2 ^ 128)
    (hv : ∀ i, i < size → gt index size i < 3)
    (hkA : 16 * (3 * size + 1) ≤ kA0.length) (hkB : 16 * (3 * size + 1) ≤ kB0.length)
    (hn : 3 ^ size < 2 ^ 64) (hoA : 3 ^ size ≤ outA.length) (hoB : 3 ^ size ≤ outB.length) :
    ∃ kA kB,
      DPFGen P0 P1 P2 gt size index seedA seedB rand kA0 kB0 = some (kA, kB) ∧
      ∀ i, i ≤ size →
        ∃ st, DPFGen_loop P0 P1 P2 gt size index rand i (DPFGen_init size seedA seedB) = some st ∧
          st.parentA =
            (eval_levels P0 P1 P2 kA size i (eval_init kA size outA)).parents.getD
              (∑ k in Finset.range i, gt index size k * 3 ^ k) 0 ∧
          st.parentB =
            (eval_levels P0 P1 P2 kB size i (eval_init kB size outB)).parents.getD
              (∑ k in Finset.range i, gt index size k * 3 ^ k) 0 := by
  obtain ⟨kA, kB, hk, hall⟩ := eval_pair_invariant P0 P1 P2 gt size index seedA seedB rand kA0
    kB0 outA outB h0 h1 h2 hsA hsB hr hv hkA hkB hn hoA hoB
  refine ⟨kA, kB, hk, fun i hi => ?_⟩
  obtain ⟨st, hst, pA, pB, -⟩ := hall i hi
  rw [← path_slot_eq_sum]
  exact ⟨st, hst, pA.symm, pB.symm⟩

/-- C15, at depth 2 with index 4, the sample PRFs, seeds 6 and 9, draws 10 and 11. -/
theorem DPFGen_tracks_path_witness :
    ∃ kA kB,
      DPFGen prf0 prf1 prf2 get_trit 2 4 6 9 rand10 (zeros 112) (zeros 112) = some (kA, kB) ∧
      ∀ i, i ≤ 2 →
        ∃ st, DPFGen_loop prf0 prf1 prf2 get_trit 2 4 rand10 i (DPFGen_init 2 6 9) = some st ∧
          st.parentA =
            (eval_levels prf0 prf1 prf2 kA 2 i (eval_init kA 2 (zeros 9))).parents.getD
              (∑ k in Finset.range i, get_trit 4 2 k * 3 ^ k) 0 ∧
          st.parentB =
            (eval_levels prf0 prf1 prf2 kB 2 i (eval_init kB 2 (zeros 9))).parents.getD
              (∑ k in Finset.range i, get_trit 4 2 k * 3 ^ k) 0 :=
  DPFGen_tracks_path prf0 prf1 prf2 get_trit 2 4 6 9 rand10 (zeros 112) (zeros 112) (zeros 9)
    (zeros 9) (fun _ => Nat.mod_lt _ (by norm_num)) (fun _ => Nat.mod_lt _ (by norm_num))
    (fun _ => Nat.mod_lt _ (by norm_num)) (by norm_num) (by norm_num)
    (fun i hi => by unfold rand10; omega) (by decide) (by decide) (by decide) (by norm_num)
    (by decide) (by decide)

/-- C16: with valid trits, at every level `i < size` of `DPFGen`, with `parentA`, `parentB` the
parents at the start of the iteration, `t` the trit and `r` the sampled word: the word stored
for branch `t` is a word `r1` that agrees with `r` above the least-significant bit and differs
from `r` in that bit exactly when `P_t(parentA) ^ P_t(parentB) ^ r` has least-significant bit 0,
and the word stored for each branch `b ≠ t` is `P_b(parentA) ^ P_b(parentB)`. -/
theorem DPFGen_cw_assembly (P0 P1 P2 : Nat → Nat) (gt : Nat → Nat → Nat → Nat)
    (size index : Nat) (seedA seedB : Nat) (rand : Nat → Nat)
    (hv : ∀ i, i < size → gt index size i < 3) :
    ∃ stn,
      DPFGen_loop P0 P1 P2 gt size index rand size (DPFGen_init size seedA seedB) = some stn ∧
      ∀ i, i < size →
        ∃ st r1,
          DPFGen_loop P0 P1 P2 gt size index rand i (DPFGen_init size seedA seedB) = some st ∧
          cw_sel stn (gt index size i) i = r1 ∧
          r1 / 2 = rand i / 2 ∧
          (get_lsb r1 ≠ get_lsb (rand i) ↔
            get_lsb
              (prf_sel P0 P1 P2 (gt index size i) st.parentA ^^^
                prf_sel P0 P1 P2 (gt index size i) st.parentB ^^^ rand i) = 0) ∧
          ∀ b, b < 3 → b ≠ gt index size i →
            cw_sel stn b i = prf_sel P0 P1 P2 b st.parentA ^^^ prf_sel P0 P1 P2 b st.parentB := by
  obtain ⟨stn, hstn, -⟩ := DPFGen_loop_spec P0 P1 P2 gt size index rand
    (DPFGen_init size seedA seedB) size hv
  refine ⟨stn, hstn, fun i hi => ?_⟩
  obtain ⟨st, hst, -⟩ := DPFGen_loop_spec P0 P1 P2 gt size index rand
    (DPFGen_init size seedA seedB) i (fun j hj => hv j (by omega))
  have hcw := DPFGen_cw_value P0 P1 P2 gt size index seedA seedB rand hv i hi st stn hst hstn
  have ht := hcw (gt index size i) (hv i hi)
  rw [if_pos rfl] at ht
  refine ⟨st, _, hst, ht, on_path_word_div_two _ _ _, on_path_word_flips_iff _ _ _, ?_⟩
  intro b hb hne
  rw [hcw b hb, if_neg hne]

/-- C16, at depth 2 with index 4, the sample PRFs, seeds 6 and 9, draws 10 and 11. -/
theorem DPFGen_cw_assembly_witness :
    ∃ stn,
      DPFGen_loop prf0 prf1 prf2 get_trit 2 4 rand10 2 (DPFGen_init 2 6 9) = some stn ∧
      ∀ i, i < 2 →
        ∃ st r1,
          DPFGen_loop prf0 prf1 prf2 get_trit 2 4 rand10 i (DPFGen_init 2 6 9) = some st ∧
          cw_sel stn (get_trit 4 2 i) i = r1 ∧
          r1 / 2 = rand10 i / 2 ∧
          (get_lsb r1 ≠ get_lsb (rand10 i) ↔
            get_lsb
              (prf_sel prf0 prf1 prf2 (get_trit 4 2 i) st.parentA ^^^
                prf_sel prf0 prf1 prf2 (get_trit 4 2 i) st.parentB ^^^ rand10 i) = 0) ∧
          ∀ b, b < 3 → b ≠ get_trit 4 2 i →
            cw_sel stn b i =
              prf_sel prf0 prf1 prf2 b st.parentA ^^^ prf_sel prf0 prf1 prf2 b st.parentB :=
  DPFGen_cw_assembly prf0 prf1 prf2 get_trit 2 4 6 9 rand10 (by decide)

/-- C17: in a run of `DPFFullDomainEval` on any key, at every level `i < size` with
`m = 3 ^ i`: the level starts with `num_nodes = m`, and with `s j` the content of `parents[j]`
when the level starts, the level ends with
`parents[j + b * m] = P_b(s j) ^ (CW_b[i] if LSB(s j) = 1, else 0)` for every `j < m` and every
branch `b < 3`. -/
theorem eval_level_recurrence (P0 P1 P2 : Nat → Nat) (k : List Nat) (size : Nat)
    (out : List Nat) (hn : 3 ^ size < 2 ^ 64) (ho : 3 ^ size ≤ out.length) (i : Nat)
    (hi : i < size) :
    (eval_levels P0 P1 P2 k size i (eval_init k size out)).num_nodes = 3 ^ i ∧
    ∀ j, j < 3 ^ i → ∀ b, b < 3 →
      (eval_levels P0 P1 P2 k size (i + 1) (eval_init k size out)).parents.getD
          (j + b * 3 ^ i) 0 =
        prf_sel P0 P1 P2 b
            ((eval_levels P0 P1 P2 k size i (eval_init k size out)).parents.getD j 0) ^^^
          (if get_lsb ((eval_levels P0 P1 P2 k size i (eval_init k size out)).parents.getD j 0)
              = 1 then
            read_word k (cw_offset size b i)
          else 0) := by
  refine ⟨(eval_levels_inv P0 P1 P2 k size out hn ho i (by omega)).1, fun j hj b hb => ?_⟩
  rw [(eval_levels_succ_spec P0 P1 P2 k size out hn ho i hi).2 b j hb hj, child_seed_as_xor]

/-- C17, at depth 2 and level 1 for the key with seed 1 and all correction words 2. -/
theorem eval_level_recurrence_witness :
    (eval_levels prf0 prf1 prf2 key_twos 2 1 (eval_init key_twos 2 (zeros 9))).num_nodes = 3 ^ 1 ∧
    ∀ j, j < 3 ^ 1 → ∀ b, b < 3 →
      (eval_levels prf0 prf1 prf2 key_twos 2 (1 + 1) (eval_init key_twos 2 (zeros 9))).parents.getD
          (j + b * 3 ^ 1) 0 =
        prf_sel prf0 prf1 prf2 b
            ((eval_levels prf0 prf1 prf2 key_twos 2 1
              (eval_init key_twos 2 (zeros 9))).parents.getD j 0) ^^^
          (if get_lsb ((eval_levels prf0 prf1 prf2 key_twos 2 1
              (eval_init key_twos 2 (zeros 9))).parents.getD j 0) = 1 then
            read_word key_twos (cw_offset 2 b 1)
          else 0) :=
  eval_level_recurrence prf0 prf1 prf2 key_twos 2 (zeros 9) (by norm_num) (by decide) 1
    (by norm_num)

/-- C18: with valid trits, 128-bit PRFs and draws, `DPFGen` returns two keys; read the way
`DPFFullDomainEval` reads them (seed at byte 0, the three arrays at bytes `16`, `16 + 16 * size`
and `16 + 32 * size`), each key yields the seed of its party and, for every `i < size`, the words
`sCW0[i]`, `sCW1[i]`, `sCW2[i]` of `DPFGen`. -/
theorem key_parse_roundtrip (P0 P1 P2 : Nat → Nat) (gt : Nat → Nat → Nat → Nat)
    (size index : Nat) (seedA seedB : Nat) (rand : Nat → Nat) (kA0 kB0 : List Nat)
    (h0 : ∀ x, P0 x < 2 ^ 128) (h1 : ∀ x, P1 x < 2 ^ 128) (h2 : ∀ x, P2 x < 2 ^ 128)
    (hsA : seedA < 2 ^ 128) (hsB : seedB < 2 ^ 128) (hr : ∀ i, i < size → rand i < 2 ^ 128)
    (hv : ∀ i, i < size → gt index size i < 3)
    (hkA : 16 * (3 * size + 1) ≤ kA0.length) (hkB : 16 * (3 * size + 1) ≤ kB0.length) :
    ∃ stn kA kB,
      DPFGen_loop P0 P1 P2 gt size index rand size (DPFGen_init size seedA seedB) = some stn ∧
      DPFGen P0 P1 P2 gt size index seedA seedB rand kA0 kB0 = some (kA, kB) ∧
      read_word kA 0 = DPFGen_seedA seedA seedB ∧
      read_word kB 0 = seedB ∧
      ∀ i, i < size →
        read_word kA (16 + 16 * i) = stn.sCW0.getD i 0 ∧
        read_word kA (16 + 16 * size + 16 * i) = stn.sCW1.getD i 0 ∧
        read_word kA (16 + 32 * size + 16 * i) = stn.sCW2.getD i 0 ∧
        read_word kB (16 + 16 * i) = stn.sCW0.getD i 0 ∧
        read_word kB (16 + 16 * size + 16 * i) = stn.sCW1.getD i 0 ∧
        read_word kB (16 + 32 * size + 16 * i) = stn.sCW2.getD i 0 := by
  obtain ⟨stn, kA, kB, hstn, hk, rsA, rsB, rA, rB⟩ :=
    DPFGen_keys_read P0 P1 P2 gt size index seedA seedB rand kA0 kB0 hv hkA hkB
  rw [Nat.mod_eq_of_lt (seedA_lt seedA seedB hsA)] at rsA
  rw [Nat.mod_eq_of_lt hsB] at rsB
  refine ⟨stn, kA, kB, hstn, hk, rsA, rsB, fun i hi => ?_⟩
  have hlt := fun b hb => cw_sel_lt P0 P1 P2 gt size index seedA seedB rand h0 h1 h2 hr hv stn
    hstn b i hb hi
  have e1 : 16 + 16 * size + 16 * i = 16 * size + 16 + 16 * i := by omega
  have e2 : 16 + 32 * size + 16 * i = 16 * 2 * size + 16 + 16 * i := by omega
  have a0 := rA 0 i (by norm_num) hi
  have a1 := rA 1 i (by norm_num) hi
  have a2 := rA 2 i (by norm_num) hi
  have b0 := rB 0 i (by norm_num) hi
  have b1 := rB 1 i (by norm_num) hi
  have b2 := rB 2 i (by norm_num) hi
  rw [Nat.mod_eq_of_lt (hlt 0 (by norm_num))] at a0 b0
  rw [Nat.mod_eq_of_lt (hlt 1 (by norm_num))] at a1 b1
  rw [Nat.mod_eq_of_lt (hlt 2 (by norm_num))] at a2 b2
  rw [e1, e2]
  exact ⟨a0, a1, a2, b0, b1, b2⟩

/-- C18, at depth 2 with index 4, the sample PRFs, seeds 6 and 9, draws 10 and 11. -/
theorem key_parse_roundtrip_witness :
    ∃ stn kA kB,
      DPFGen_loop prf0 prf1 prf2 get_trit 2 4 rand10 2 (DPFGen_init 2 6 9) = some stn ∧
      DPFGen prf0 prf1 prf2 get_trit 2 4 6 9 rand10 (zeros 112) (zeros 112) = some (kA, kB) ∧
      read_word kA 0 = DPFGen_seedA 6 9 ∧
      read_word kB 0 = 9 ∧
      ∀ i, i < 2 →
        read_word kA (16 + 16 * i) = stn.sCW0.getD i 0 ∧
        read_word kA (16 + 16 * 2 + 16 * i) = stn.sCW1.getD i 0 ∧
        read_word kA (16 + 32 * 2 + 16 * i) = stn.sCW2.getD i 0 ∧
        read_word kB (16 + 16 * i) = stn.sCW0.getD i 0 ∧
        read_word kB (16 + 16 * 2 + 16 * i) = stn.sCW1.getD i 0 ∧
        read_word kB (16 + 32 * 2 + 16 * i) = stn.sCW2.getD i 0 :=
  key_parse_roundtrip prf0 prf1 prf2 get_trit 2 4 6 9 rand10 (zeros 112) (zeros 112)
    (fun _ => Nat.mod_lt _ (by norm_num)) (fun _ => Nat.mod_lt _ (by norm_num))
    (fun _ => Nat.mod_lt _ (by norm_num)) (by norm_num) (by norm_num)
    (fun i hi => by unfold rand10; omega) (by decide) (by decide) (by decide)

/-- C19: with `out` of exactly `3 ^ size` words, the run of `DPFFullDomainEval` with every
access checked succeeds and returns the vector of the unchecked routine: every index used on
`parents` or `out`, in the level loop and in the final loop, is below `3 ^ size`, every
correction-word index is below `size`, and every key byte read is below `16 * (3 * size + 1)`.
At the start of every level `i < size`, `num_nodes = 3 ^ i` and `two_num_nodes = 2 * 3 ^ i`. -/
theorem eval_indices_in_bounds (P0 P1 P2 : Nat → Nat) (k : List Nat) (size : Nat)
    (out : List Nat) (hs : 1 ≤ size) (hn : 3 ^ size < 2 ^ 31) (ho : out.length = 3 ^ size) :
    DPFFullDomainEval_chk P0 P1 P2 k size out = some (DPFFullDomainEval P0 P1 P2 k size out) ∧
    ∀ i, i < size →
      (eval_levels P0 P1 P2 k size i (eval_init k size out)).num_nodes = 3 ^ i ∧
      (eval_levels P0 P1 P2 k size i (eval_init k size out)).two_num_nodes = 2 * 3 ^ i := by
  have hn64 : 3 ^ size < 2 ^ 64 := lt_trans hn (by norm_num)
  have hpos : 0 < 3 ^ size := Nat.pow_pos (by norm_num)
  constructor
  · obtain ⟨a1, -, a3, a4⟩ := eval_levels_inv P0 P1 P2 k size out hn64 (le_of_eq ho.symm) size
      (le_refl _)
    have hm := three_pow_div size hs
    have hmpos : 0 < 3 ^ (size - 1) := Nat.pow_pos (by norm_num)
    have h3 : 3 ^ size = 3 * 3 ^ (size - 1) := by
      obtain ⟨n, rfl⟩ : ∃ n, size = n + 1 := ⟨size - 1, by omega⟩
      rw [pow_succ, Nat.add_sub_cancel]; ring
    have hinit : (⟨(List.replicate (3 ^ size) 0).set 0 (read_word k 0), out, 1, 2 * 1⟩ :
        EvalState) = eval_init k size out := rfl
    unfold DPFFullDomainEval_chk DPFFullDomainEval
    rw [read_word_chk, if_pos (by omega), Option.some_bind,
      write_chk_eq _ 0 _ (by rw [List.length_replicate]; exact hpos), Option.some_bind, hinit,
      eval_levels_chk_eq P0 P1 P2 k size out hn64 (le_of_eq ho.symm) size (le_refl _),
      Option.some_bind]
    simp only [a1, hm]
    have h2 : 2 * 3 ^ (size - 1) % 2 ^ 64 = 2 * 3 ^ (size - 1) := Nat.mod_eq_of_lt (by omega)
    rw [h2]
    exact copy_loop_chk_eq _ _ _ _ _ (by omega) (by omega) (by omega) _ _ _ (by omega) (by omega)
      (by omega)
  · intro i hi
    obtain ⟨a1, a2, -⟩ := eval_levels_inv P0 P1 P2 k size out hn64 (le_of_eq ho.symm) i (by omega)
    have hstep := pow3_step i size hi
    rw [Nat.mod_eq_of_lt (by omega)] at a2
    exact ⟨a1, a2⟩

/-- C19, at depth 2 for the key with seed 1 and all correction words 2. -/
theorem eval_indices_in_bounds_witness :
    DPFFullDomainEval_chk prf0 prf1 prf2 key_twos 2 (zeros 9) =
      some (DPFFullDomainEval prf0 prf1 prf2 key_twos 2 (zeros 9)) ∧
    ∀ i, i < 2 →
      (eval_levels prf0 prf1 prf2 key_twos 2 i (eval_init key_twos 2 (zeros 9))).num_nodes =
        3 ^ i ∧
      (eval_levels prf0 prf1 prf2 key_twos 2 i (eval_init key_twos 2 (zeros 9))).two_num_nodes =
        2 * 3 ^ i :=
  eval_indices_in_bounds prf0 prf1 prf2 key_twos 2 (zeros 9) (by norm_num) (by norm_num)
    (by decide)

/-- C20: for `size ≥ 1`, any key and PRFs, with `m = 3 ^ (size - 1)` and `s j` the content of
`parents[j]` when the last level starts: the vector that `DPFFullDomainEval` returns holds
`P_b(s 0) ^ (CW_b[size - 1] if LSB(s 0) = 1, else 0)` at index `b * m`, and the PRF output
`P_b(s j)` with no correction word at index `j + b * m` for every `1 ≤ j < m`, for every branch
`b < 3`. -/
theorem returned_vector_contents (P0 P1 P2 : Nat → Nat) (k : List Nat) (size : Nat)
    (out : List Nat) (hs : 1 ≤ size) (hn : 3 ^ size < 2 ^ 31) (ho : 3 ^ size ≤ out.length) :
    (∀ b, b < 3 →
      (DPFFullDomainEval P0 P1 P2 k size out).getD (b * 3 ^ (size - 1)) 0 =
        prf_sel P0 P1 P2 b
            ((eval_levels P0 P1 P2 k size (size - 1) (eval_init k size out)).parents.getD 0 0) ^^^
          (if get_lsb
              ((eval_levels P0 P1 P2 k size (size - 1) (eval_init k size out)).parents.getD 0 0)
              = 1 then
            read_word k (cw_offset size b (size - 1))
          else 0)) ∧
    ∀ j, 1 ≤ j → j < 3 ^ (size - 1) → ∀ b, b < 3 →
      (DPFFullDomainEval P0 P1 P2 k size out).getD (j + b * 3 ^ (size - 1)) 0 =
        prf_sel P0 P1 P2 b
          ((eval_levels P0 P1 P2 k size (size - 1) (eval_init k size out)).parents.getD j 0) := by
  have hn64 : 3 ^ size < 2 ^ 64 := lt_trans hn (by norm_num)
  have hpos : 0 < 3 ^ (size - 1) := Nat.pow_pos (by norm_num)
  have hsz : size - 1 + 1 = size := by omega
  have hspec := eval_levels_succ_spec P0 P1 P2 k size out hn64 ho (size - 1) (by omega)
  rw [hsz] at hspec
  refine ⟨fun b hb => ?_, fun j hj1 hjm b hb => ?_⟩
  · have hq : b * 3 ^ (size - 1) = 0 ∨ b * 3 ^ (size - 1) = 3 ^ (size - 1) ∨
        b * 3 ^ (size - 1) = 2 * 3 ^ (size - 1) := by
      have hb3 : b = 0 ∨ b = 1 ∨ b = 2 := by omega
      rcases hb3 with rfl | rfl | rfl
      · exact Or.inl (Nat.zero_mul _)
      · exact Or.inr (Or.inl (Nat.one_mul _))
      · exact Or.inr (Or.inr rfl)
    rw [DPFFullDomainEval_getD P0 P1 P2 k size out hs hn64 ho, if_pos hq, eval_parents]
    have h := hspec.2 b 0 hb hpos
    rw [Nat.zero_add] at h
    rw [h, child_seed_as_xor]
  · have hb3 : b = 0 ∨ b = 1 ∨ b = 2 := by omega
    have hq : ¬ (j + b * 3 ^ (size - 1) = 0 ∨ j + b * 3 ^ (size - 1) = 3 ^ (size - 1) ∨
        j + b * 3 ^ (size - 1) = 2 * 3 ^ (size - 1)) := by
      rcases hb3 with rfl | rfl | rfl <;> omega
    rw [DPFFullDomainEval_getD P0 P1 P2 k size out hs hn64 ho, if_neg hq]
    exact hspec.1 b j hb hjm

/-- C20, at depth 2 for the key with seed 1 and all correction words 2. -/
theorem returned_vector_contents_witness :
    (∀ b, b < 3 →
      (DPFFullDomainEval prf0 prf1 prf2 key_twos 2 (zeros 9)).getD (b * 3 ^ (2 - 1)) 0 =
        prf_sel prf0 prf1 prf2 b
            ((eval_levels prf0 prf1 prf2 key_twos 2 (2 - 1)
              (eval_init key_twos 2 (zeros 9))).parents.getD 0 0) ^^^
          (if get_lsb
              ((eval_levels prf0 prf1 prf2 key_twos 2 (2 - 1)
                (eval_init key_twos 2 (zeros 9))).parents.getD 0 0) = 1 then
            read_word key_twos (cw_offset 2 b (2 - 1))
          else 0)) ∧
    ∀ j, 1 ≤ j → j < 3 ^ (2 - 1) → ∀ b, b < 3 →
      (DPFFullDomainEval prf0 prf1 prf2 key_twos 2 (zeros 9)).getD (j + b * 3 ^ (2 - 1)) 0 =
        prf_sel prf0 prf1 prf2 b
          ((eval_levels prf0 prf1 prf2 key_twos 2 (2 - 1)
            (eval_init key_twos 2 (zeros 9))).parents.getD j 0) :=
  returned_vector_contents prf0 prf1 prf2 key_twos 2 (zeros 9) (by norm_num) (by norm_num)
    (by decide)

end FastDPF
